import Mathlib

/-!
Verification of the HouseScraper pipeline (`src/app.py`).

The Python code is shallowly embedded: strings are `List Char` (Python
strings are sequences of code points), Python `float` results of the
text-normalization helpers are modelled as exact rationals (every value the
claims mention is an exact decimal, and the arithmetic performed on them —
`* 10000.0`, `* 4046.8564224` on decimals of this size — is reproduced
exactly by `ℚ`), `None` is `Option.none`, and an uncaught Python exception
is `Option.none` at the function's result type.

Regular-expression calls in the source are embedded as explicit
left-to-right scanners with the same leftmost-match semantics; the regex
character classes are spelled out.  `\w`, `\s` and `str.lower` are modelled
at ASCII level (every string the program manipulates in the claims is
ASCII apart from the source file's own byte-corrupted `m¬≤` pattern,
which is embedded byte-faithfully below).
-/

set_option maxRecDepth 100000

abbrev Str := List Char

def str (s : String) : Str := s.data

/-! ### Character classes -/

def isAsciiDigit (c : Char) : Bool := 48 ≤ c.toNat && c.toNat ≤ 57

def isAsciiUpper (c : Char) : Bool := 65 ≤ c.toNat && c.toNat ≤ 90

def isAsciiLower (c : Char) : Bool := 97 ≤ c.toNat && c.toNat ≤ 122

def isAsciiAlpha (c : Char) : Bool := isAsciiUpper c || isAsciiLower c

/-- ASCII model of Python `str.lower`. -/
def lowerChar (c : Char) : Char :=
  if isAsciiUpper c then Char.ofNat (c.toNat + 32) else c

/-- ASCII model of the regex class `\s` / `str.strip()` whitespace. -/
def isSpacePy (c : Char) : Bool :=
  c = ' ' || c = '\t' || c = '\n' || c = '\r' || c = '\x0b' || c = '\x0c'

/-- The regex class `[0-9,\.]` shared by the money and land patterns. -/
def numRunChar (c : Char) : Bool := isAsciiDigit c || c = ',' || c = '.'

/-- ASCII model of the regex class `\w` (word character). -/
def isWordChar (c : Char) : Bool := isAsciiAlpha c || isAsciiDigit c || c = '_'

/-- The class `[a-z0-9]` of `normalize_title`'s punctuation regex. -/
def isLowerNum (c : Char) : Bool := isAsciiLower c || isAsciiDigit c

/-! ### Generic string helpers -/

/-- Split at the first occurrence of `t`: `some (before, after)`, or `none`
if `t` does not occur.  (Python `s.split(t, 1)` / `s.find(t)`.) -/
def splitFirst (t : Char) : Str → Option (Str × Str)
  | [] => none
  | c :: cs =>
    if c = t then some ([], cs)
    else (splitFirst t cs).map fun p => (c :: p.1, p.2)

/-- Python `str.strip()` (whitespace on both ends). -/
def pyStrip (l : Str) : Str :=
  ((l.dropWhile isSpacePy).reverse.dropWhile isSpacePy).reverse

/-- Digits to a natural number, most significant first. -/
def natOfDigits (l : Str) : Nat := l.foldl (fun a c => 10 * a + (c.toNat - 48)) 0

/-- Rational multiplication written through the smart constructor `mkRat`.
`Rat.mul` is `@[irreducible]`, which blocks kernel evaluation of the model
on concrete inputs; `qmul` is definitionally transparent and proved equal
to `*` in `qmul_eq_mul` below. -/
def qmul (x y : ℚ) : ℚ := mkRat (x.num * y.num) (x.den * y.den)

/-- Rational subtraction through `mkRat`; equal to `-` by `qsub_eq_sub`. -/
def qsub (x y : ℚ) : ℚ := mkRat (x.num * y.den - y.num * x.den) (x.den * y.den)

/-- Model of Python `float(raw)` restricted to the strings that can reach it
here: after the comma strip a raw group consists of digits and dots only.
`float` accepts it iff it has at most one dot and at least one digit
(`"12"`, `"12.5"`, `"12."` parse; `"1.2.3"` raises `ValueError`).
The value `intpart.fracpart` is the exact rational
`digits(intpart ++ fracpart) / 10 ^ |fracpart|`. -/
def floatOfDigits (l : Str) : Option ℚ :=
  if l.all numRunChar && !l.any (· = ',') && l.count '.' ≤ 1 && l.any isAsciiDigit then
    match splitFirst '.' l with
    | none => some (mkRat (natOfDigits l) 1)
    | some (a, b) => some (mkRat (natOfDigits (a ++ b)) (10 ^ b.length))
  else none

/-! ### `parse_money_best_effort` (src/app.py:139-149)

`re.search(r"\$\s*([0-9][0-9,\.]*)", text)`, then
`raw = m.group(1).replace(",", "").strip()`, then `float(raw)` with
`ValueError ↦ None`. -/

/-- Attempt the tail of the money pattern right after a `$`:
`\s*` then `[0-9][0-9,\.]*` (greedy).  Returns the captured group. -/
def moneyGroupAt (cs : Str) : Option Str :=
  match cs.dropWhile isSpacePy with
  | [] => none
  | d :: r => if isAsciiDigit d then some (d :: r.takeWhile numRunChar) else none

/-- Leftmost search for the money pattern. -/
def moneyScan : Str → Option Str
  | [] => none
  | c :: cs =>
    if c = '$' then
      match moneyGroupAt cs with
      | some g => some g
      | none => moneyScan cs
    else moneyScan cs

def parse_money_core (t : Str) : Option ℚ :=
  match moneyScan t with
  | none => none
  | some g => floatOfDigits (pyStrip (g.filter (fun c => !(c = ','))))

/-- `parse_money_best_effort`; the `if not text` guard makes both `None`
and the empty string yield `None`. -/
def parse_money_best_effort (o : Option Str) : Option ℚ :=
  match o with
  | none => none
  | some [] => none
  | some t => parse_money_core t

/-! ### `parse_land_to_m2_best_effort` (src/app.py:152-181)

The first pattern of the function is, byte for byte,
`([0-9][0-9,\.]*)m¬≤|([0-9][0-9,\.]*)m2` — the source file stores the two
characters U+00AC U+2264 after the `m` (an encoding corruption of what was
once `m²`), and that is what the deployed regex matches against.  Then the
`ha` and `acres?` patterns, all case-insensitive, on the text with spaces
removed. -/

/-- Case-insensitive literal match of `pat` (already lowercase) at the head
of `s`; returns the rest on success. -/
def matchCI : Str → Str → Option Str
  | [], s => some s
  | _ :: _, [] => none
  | p :: ps, c :: cs => if lowerChar c = p then matchCI ps cs else none

/-- At one position: `[0-9][0-9,\.]*` (greedy; no backtracking can help,
since none of the unit suffixes starts with a `[0-9,\.]` character)
followed by one of the alternative unit suffixes. -/
def unitGroupAt (sfxs : List Str) : Str → Option Str
  | [] => none
  | c :: cs =>
    if isAsciiDigit c then
      let rest := cs.dropWhile numRunChar
      if sfxs.any (fun s => (matchCI s rest).isSome) then
        some (c :: cs.takeWhile numRunChar)
      else none
    else none

/-- Leftmost search for number-followed-by-unit. -/
def unitScan (sfxs : List Str) : Str → Option Str
  | [] => none
  | c :: cs =>
    match unitGroupAt sfxs (c :: cs) with
    | some g => some g
    | none => unitScan sfxs cs

/-- The corrupted bytes `¬≤` that follow `m` in the source's first
land-size pattern (U+00AC, U+2264). -/
def mojibakeSq : Str := ['m', '¬', '≤']

def parse_land_core (t0 : Str) : Option ℚ :=
  let t := t0.filter (fun c => !(c = ' '))
  match unitScan [mojibakeSq, str "m2"] t with
  | some g => floatOfDigits (g.filter (fun c => !(c = ',')))
  | none =>
    match unitScan [str "ha"] t with
    | some g => (floatOfDigits (g.filter (fun c => !(c = ',')))).map (qmul · 10000)
    | none =>
      match unitScan [str "acre"] t with
      | some g =>
        (floatOfDigits (g.filter (fun c => !(c = ',')))).map
          (qmul · (mkRat 40468564224 10000000))
      | none => none

def parse_land_to_m2_best_effort (o : Option Str) : Option ℚ :=
  match o with
  | none => none
  | some [] => none
  | some t => parse_land_core t

/-! ### `normalize_title` (src/app.py:107-113) -/

/-- Match one of the (non-empty, lowercase) tokens literally at the head
of `l`, in alternation order, requiring a `\b` word boundary after it;
returns the rest after the matched token. -/
def findTok (toks : List Str) (l : Str) : Option Str :=
  match toks with
  | [] => none
  | t :: ts =>
    match matchTok t l with
    | some rest => if boundaryAfter rest then some rest else findTok ts l
    | none => findTok ts l
where
  matchTok : Str → Str → Option Str
    | [], s => some s
    | _ :: _, [] => none
    | p :: ps, c :: cs => if c = p then matchTok ps cs else none
  boundaryAfter : Str → Bool
    | [] => true
    | c :: _ => !isWordChar c

/-- `re.sub(r"\b(tok|…)\b", "", s)`: scan left to right; a match needs a
non-word (or start) character before it, and scanning resumes right after
the removed token, whose final character (a word character for all our
tokens) becomes the character behind the cursor.  Fuel-driven so the
definition reduces in the kernel; fuel `≥ length` always suffices since
every step consumes at least one character. -/
def subTokens (toks : List Str) : Nat → Bool → Str → Str
  | 0, _, l => l
  | _ + 1, _, [] => []
  | n + 1, prevWord, c :: cs =>
    if prevWord then c :: subTokens toks n (isWordChar c) cs
    else
      match findTok toks (c :: cs) with
      | some rest => subTokens toks n true rest
      | none => c :: subTokens toks n (isWordChar c) cs

/-- `re.sub(r"[^a-z0-9]+", " ", s)`: each maximal run of characters
outside `[a-z0-9]` becomes a single space. -/
def squashNonAlnum : Str → Str
  | [] => []
  | c :: cs =>
    let rest := squashNonAlnum cs
    if isLowerNum c then c :: rest
    else
      match cs with
      | c2 :: _ => if isLowerNum c2 then ' ' :: rest else rest
      | [] => [' ']

/-- `re.sub(r"\s+", " ", s)`: each maximal whitespace run becomes one
space. -/
def squashWs : Str → Str
  | [] => []
  | c :: cs =>
    let rest := squashWs cs
    if isSpacePy c then
      match cs with
      | c2 :: _ => if isSpacePy c2 then rest else ' ' :: rest
      | [] => [' ']
    else c :: rest

def normalize_title (s : Str) : Str :=
  let s1 := s.map lowerChar
  let s2 := subTokens [str "qld", str "queensland"] (s1.length + 1) false s1
  let s3 := subTokens [str "australia"] (s2.length + 1) false s2
  let s4 := squashNonAlnum s3
  pyStrip (squashWs s4)

/-! ### The `Listing` record (src/app.py:69-89) -/

structure Listing where
  id : Str
  source : Str
  title : Str
  url : Str
  image_url : Option Str := none
  price_text : Option Str := none
  price_num : Option ℚ := none
  beds : Option ℤ := none
  baths : Option ℤ := none
  cars : Option ℤ := none
  land_text : Option Str := none
  land_m2 : Option ℚ := none
  property_type : Option Str := none
  suburb_postcode : Option Str := none
deriving DecidableEq

/-! ### `sort_listings` (src/app.py:528-555)

Python's `sorted` is a stable sort by a key function; with `reverse=True`
it is still stable (elements with equal keys keep their original order)
and orders by the reversed comparison.  A stable sort with respect to a
total preorder is unique, so it is embedded as `List.insertionSort`, whose
`orderedInsert` places a new (earlier) element before the first existing
element it compares `≤` to — i.e. before later elements with an equal key.

`safe_num(x, fallback)` substitutes the fallback (`+inf` for ascending,
`-inf` for descending) for both `None` and NaN; in the rational model NaN
does not arise, and the extended keys live in `WithBot (WithTop ℚ)`. -/

abbrev EKey := WithBot (WithTop ℚ)

/-- `safe_num(x, float("inf"))`: missing values become `+∞`. -/
def skeyTop (o : Option ℚ) : EKey :=
  match o with
  | none => ((⊤ : WithTop ℚ) : EKey)
  | some q => ((q : WithTop ℚ) : EKey)

/-- `safe_num(x, -float("inf"))`: missing values become `-∞`. -/
def skeyBot (o : Option ℚ) : EKey :=
  match o with
  | none => (⊥ : EKey)
  | some q => ((q : WithTop ℚ) : EKey)

/-- Integer-valued optional fields (`beds`, `baths`) as rationals. -/
def qOfInt (o : Option ℤ) : Option ℚ := o.map (fun z => (z : ℚ))

def sort_listings (listings : List Listing) (sort_key : Str) : List Listing :=
  if sort_key = str "newest" then listings
  else if sort_key = str "price_asc" then
    List.insertionSort (fun a b => skeyTop a.price_num ≤ skeyTop b.price_num) listings
  else if sort_key = str "price_desc" then
    List.insertionSort (fun a b => skeyBot b.price_num ≤ skeyBot a.price_num) listings
  else if sort_key = str "land_asc" then
    List.insertionSort (fun a b => skeyTop a.land_m2 ≤ skeyTop b.land_m2) listings
  else if sort_key = str "land_desc" then
    List.insertionSort (fun a b => skeyBot b.land_m2 ≤ skeyBot a.land_m2) listings
  else if sort_key = str "beds_asc" then
    List.insertionSort (fun a b => skeyTop (qOfInt a.beds) ≤ skeyTop (qOfInt b.beds)) listings
  else if sort_key = str "beds_desc" then
    List.insertionSort (fun a b => skeyBot (qOfInt b.beds) ≤ skeyBot (qOfInt a.beds)) listings
  else if sort_key = str "baths_asc" then
    List.insertionSort (fun a b => skeyTop (qOfInt a.baths) ≤ skeyTop (qOfInt b.baths)) listings
  else if sort_key = str "baths_desc" then
    List.insertionSort (fun a b => skeyBot (qOfInt b.baths) ≤ skeyBot (qOfInt a.baths)) listings
  else listings

/-- The sort keys the `if` chain of `sort_listings` recognizes. -/
def recognizedSortKeys : List Str :=
  [str "newest", str "price_asc", str "price_desc", str "land_asc", str "land_desc",
   str "beds_asc", str "beds_desc", str "baths_asc", str "baths_desc"]

/-- The key value each recognized sort key orders by (`⊥` for the identity
orders, where any constant works). -/
def sortKeyOf (sort_key : Str) (l : Listing) : EKey :=
  if sort_key = str "price_asc" then skeyTop l.price_num
  else if sort_key = str "price_desc" then skeyBot l.price_num
  else if sort_key = str "land_asc" then skeyTop l.land_m2
  else if sort_key = str "land_desc" then skeyBot l.land_m2
  else if sort_key = str "beds_asc" then skeyTop (qOfInt l.beds)
  else if sort_key = str "beds_desc" then skeyBot (qOfInt l.beds)
  else if sort_key = str "baths_asc" then skeyTop (qOfInt l.baths)
  else if sort_key = str "baths_desc" then skeyBot (qOfInt l.baths)
  else (⊥ : EKey)

/-! ### The dedup pass of `refresh_cache` (src/app.py:514-521) -/

/-- The dedup key of one listing: `normalize_title(l.title) or l.url`
(Python `or`: an empty normalized title falls back to the canonical URL). -/
def dedupKey (l : Listing) : Str :=
  let k := normalize_title l.title
  if k = [] then l.url else k

/-- Keep only the first listing encountered for each dedup key, in order. -/
def dedupListings (combined : List Listing) : List Listing :=
  go [] combined
where
  go (seen : List Str) : List Listing → List Listing
    | [] => []
    | l :: ls =>
      if dedupKey l ∈ seen then go seen ls
      else l :: go (dedupKey l :: seen) ls

/-! ### Completeness of the money scanner -/

/-- The claim's notion of a `$`-prefixed digit sequence: a `$`, optional
whitespace, then a digit, somewhere in the text. -/
def hasDollarAmount (t : Str) : Prop :=
  ∃ pre ws d rest, t = pre ++ '$' :: (ws ++ d :: rest)
    ∧ (∀ c ∈ ws, isSpacePy c = true) ∧ isAsciiDigit d = true

/-- Two small listings used as concrete witnesses. -/
def demoListingA : Listing :=
  { id := str "a1", source := str "raywhite", title := str "Lot 1 Side Rd",
    url := str "https://site.a/p/1" }

def demoListingB : Listing :=
  { id := str "b2", source := str "domain", title := str "Lot 2 Side Rd",
    url := str "https://site.b/p/2", price_num := some 5 }

def demoListings : List Listing := [demoListingA, demoListingB]

/-! ### `make_id` (src/app.py:98-99)

`hashlib.sha1(url.encode("utf-8")).hexdigest()[:10]`, embedded as a full
SHA-1 over the UTF-8 bytes, with 32-bit words as `Nat` mod `2^32`. -/

def utf8Encode (c : Char) : List Nat :=
  let n := c.toNat
  if n < 0x80 then [n]
  else if n < 0x800 then
    [0xC0 ||| (n >>> 6), 0x80 ||| (n &&& 0x3F)]
  else if n < 0x10000 then
    [0xE0 ||| (n >>> 12), 0x80 ||| ((n >>> 6) &&& 0x3F), 0x80 ||| (n &&& 0x3F)]
  else
    [0xF0 ||| (n >>> 18), 0x80 ||| ((n >>> 12) &&& 0x3F),
     0x80 ||| ((n >>> 6) &&& 0x3F), 0x80 ||| (n &&& 0x3F)]

def utf8Bytes (s : Str) : List Nat := (s.map utf8Encode).flatten

def rotl32 (n x : Nat) : Nat := ((x <<< n) ||| (x >>> (32 - n))) % 4294967296

/-- Pad to 56 mod 64 bytes with `0x80` then zeros, then the 64-bit
big-endian bit length. -/
def sha1Pad (msg : List Nat) : List Nat :=
  let len := msg.length
  let bitlen := 8 * len
  let zeros := (64 + 56 - (len + 1) % 64) % 64
  msg ++ 0x80 :: List.replicate zeros 0 ++
    [(bitlen >>> 56) % 256, (bitlen >>> 48) % 256, (bitlen >>> 40) % 256,
     (bitlen >>> 32) % 256, (bitlen >>> 24) % 256, (bitlen >>> 16) % 256,
     (bitlen >>> 8) % 256, bitlen % 256]

/-- Big-endian bytes to 32-bit words. -/
def sha1Words : List Nat → List Nat
  | b0 :: b1 :: b2 :: b3 :: rest =>
    ((b0 <<< 24) ||| (b1 <<< 16) ||| (b2 <<< 8) ||| b3) :: sha1Words rest
  | _ => []

/-- Extend a 16-word chunk to the 80-word message schedule. -/
def sha1Extend : Nat → List Nat → List Nat
  | 0, w => w
  | n + 1, w =>
    let t := rotl32 1 (Nat.xor (Nat.xor (w.getD (w.length - 3) 0) (w.getD (w.length - 8) 0))
      (Nat.xor (w.getD (w.length - 14) 0) (w.getD (w.length - 16) 0)))
    sha1Extend n (w ++ [t])

def sha1F (i b c d : Nat) : Nat :=
  if i < 20 then Nat.lor (Nat.land b c) (Nat.land (Nat.xor b 0xFFFFFFFF) d)
  else if i < 40 then Nat.xor (Nat.xor b c) d
  else if i < 60 then Nat.lor (Nat.lor (Nat.land b c) (Nat.land b d)) (Nat.land c d)
  else Nat.xor (Nat.xor b c) d

def sha1K (i : Nat) : Nat :=
  if i < 20 then 0x5A827999
  else if i < 40 then 0x6ED9EBA1
  else if i < 60 then 0x8F1BBCDC
  else 0xCA62C1D6

def sha1Chunk (h : Nat × Nat × Nat × Nat × Nat) (chunk : List Nat) :
    Nat × Nat × Nat × Nat × Nat :=
  let w := sha1Extend 64 chunk
  let (h0, h1, h2, h3, h4) := h
  let final := (List.range 80).foldl
    (fun st i =>
      let (a, b, c, d, e) := st
      let temp := (rotl32 5 a + sha1F i b c d + e + sha1K i + w.getD i 0) % 4294967296
      (temp, a, rotl32 30 b, c, d))
    (h0, h1, h2, h3, h4)
  let (a, b, c, d, e) := final
  ((h0 + a) % 4294967296, (h1 + b) % 4294967296, (h2 + c) % 4294967296,
   (h3 + d) % 4294967296, (h4 + e) % 4294967296)

/-- Process the padded words 16 at a time (fuel = number of chunks). -/
def sha1Blocks : Nat → (Nat × Nat × Nat × Nat × Nat) → List Nat →
    Nat × Nat × Nat × Nat × Nat
  | 0, h, _ => h
  | _ + 1, h, [] => h
  | n + 1, h, ws => sha1Blocks n (sha1Chunk h (ws.take 16)) (ws.drop 16)

def hexChar (n : Nat) : Char := if n < 10 then Char.ofNat (48 + n) else Char.ofNat (87 + n)

def wordHex (x : Nat) : Str :=
  [hexChar ((x >>> 28) % 16), hexChar ((x >>> 24) % 16), hexChar ((x >>> 20) % 16),
   hexChar ((x >>> 16) % 16), hexChar ((x >>> 12) % 16), hexChar ((x >>> 8) % 16),
   hexChar ((x >>> 4) % 16), hexChar (x % 16)]

def sha1Hex (msg : List Nat) : Str :=
  let ws := sha1Words (sha1Pad msg)
  let (h0, h1, h2, h3, h4) :=
    sha1Blocks (ws.length / 16) (0x67452301, 0xEFCDAB89, 0x98BADCFE, 0x10325476, 0xC3D2E1F0) ws
  wordHex h0 ++ wordHex h1 ++ wordHex h2 ++ wordHex h3 ++ wordHex h4

def make_id (url : Str) : Str := (sha1Hex (utf8Bytes url)).take 10

/-! ### `canonical_url` (src/app.py:116-118) over CPython `urllib.parse`

`urlparse`/`urlunparse` embedded following CPython's `urlsplit`,
`_splitparams` and `urlunsplit`: leading C0-control/space lstrip, removal
of tab/CR/LF everywhere, scheme detection (text before the first `:` when
it is nonempty, starts with an ASCII letter and consists of scheme
characters; lowercased), `//`-netloc up to the first `/?#` with the
mismatched-bracket "Invalid IPv6 URL" `ValueError` (`none` here), fragment
split at the first `#`, query split at the first `?`, and parameter
splitting on the last path segment for schemes in `uses_params`.
(CPython ≥ 3.11 additionally validates the contents of a bracketed host;
that check sees the identical netloc when the canonical form is re-parsed,
so it does not affect the round-trip properties proved below.) -/

def isC0OrSpace (c : Char) : Bool := c.toNat ≤ 0x20

def isUnsafeUrlChar (c : Char) : Bool := c = '\t' || c = '\r' || c = '\n'

def schemeChar (c : Char) : Bool :=
  isAsciiAlpha c || isAsciiDigit c || c = '+' || c = '-' || c = '.'

def nonNetlocDelim (c : Char) : Bool := !(c = '/' || c = '?' || c = '#')

/-- The pre-clean: `url.lstrip(C0-control-or-space)` then removal of
`\t\r\n`. -/
def precleanUrl (u : Str) : Str :=
  (u.dropWhile isC0OrSpace).filter (fun c => !isUnsafeUrlChar c)

/-- Scheme detection on the cleaned URL. -/
def schemeSplit (u : Str) : Str × Str :=
  match splitFirst ':' u with
  | none => ([], u)
  | some (a, b) =>
    match a with
    | [] => ([], u)
    | c :: cs =>
      if isAsciiAlpha c = true ∧ (c :: cs).all schemeChar = true
      then ((c :: cs).map lowerChar, b) else ([], u)

/-- `_splitnetloc`: the netloc runs to the first `/`, `?` or `#`. -/
def splitnetloc (l : Str) : Str × Str :=
  (l.takeWhile nonNetlocDelim, l.dropWhile nonNetlocDelim)

/-- The "Invalid IPv6 URL" check: `[` without `]` or vice versa raises. -/
def bracketBad (n : Str) : Bool := (n.contains '[') != (n.contains ']')

structure UrlParts where
  scheme : Str
  netloc : Str
  path : Str
  query : Str
  fragment : Str
deriving DecidableEq

/-- `url[:2] == '//'`. -/
def startsSS (p : Str) : Bool :=
  match p with
  | c1 :: c2 :: _ => decide (c1 = '/') && decide (c2 = '/')
  | _ => false

/-- The netloc step of `urlsplit`: when the remainder starts with `//`,
take the netloc from index 2 up to the first `/?#`. -/
def netlocPhase (l : Str) : Str × Str :=
  if startsSS l = true then splitnetloc (l.drop 2) else ([], l)

/-- `url.split(t, 1)` keeping the unsplit string when `t` is absent. -/
def splitKeep (t : Char) (l : Str) : Str × Str :=
  match splitFirst t l with
  | none => (l, [])
  | some (a, b) => (a, b)

/-- Fragment split at the first `#` (no split when absent). -/
def fragSplit (l : Str) : Str × Str := splitKeep '#' l

/-- Query split at the first `?` (no split when absent). -/
def querySplit (l : Str) : Str × Str := splitKeep '?' l

def urlsplitM (u0 : Str) : Option UrlParts :=
  let u1 := precleanUrl u0
  let sr := schemeSplit u1
  let nr := netlocPhase sr.2
  if bracketBad nr.1 then none
  else
    let cf := fragSplit nr.2
    let pq := querySplit cf.1
    some ⟨sr.1, nr.1, pq.1, pq.2, cf.2⟩

/-- Split at the last occurrence of `t` (`str.rfind`). -/
def splitLast (t : Char) (l : Str) : Option (Str × Str) :=
  match splitFirst t l.reverse with
  | none => none
  | some (x, y) => some (y.reverse, x.reverse)

/-- `uses_params` of `urllib.parse`. -/
def usesParams (s : Str) : Bool :=
  decide (s ∈ ([[], str "ftp", str "hdl", str "prospero", str "http", str "imap",
    str "https", str "shttp", str "rtsp", str "rtspu", str "sip", str "sips",
    str "mms", str "sftp", str "tel"] : List Str))

/-- `_splitparams`: split at the first `;` after the last `/` (or the
first `;` overall when there is no `/`); `(p, "")` when no such `;`. -/
def splitparams (p : Str) : Str × Str :=
  if '/' ∈ p then
    match splitLast '/' p with
    | none => (p, [])
    | some (a, b) =>
      match splitFirst ';' b with
      | none => (p, [])
      | some (b1, b2) => (a ++ '/' :: b1, b2)
  else
    match splitFirst ';' p with
    | none => (p, [])
    | some (a, b) => (a, b)

/-- `urlparse`'s parameter split followed by `urlunparse`'s
`path + ';' + params` rejoin (skipped when `params` is empty — the one
place the composition changes the path, dropping a trailing `;`). -/
def paramAdjust (s p : Str) : Str :=
  if usesParams s = true ∧ ';' ∈ p then
    match splitparams p with
    | (a, []) => a
    | (a, c :: cs) => a ++ ';' :: c :: cs
  else p

/-- `urlunsplit` (the fragment argument is always empty here). -/
def urlunsplitM (s n p q f : Str) : Str :=
  let u1 :=
    if n ≠ [] ∨ startsSS p = true then
      '/' :: '/' :: (n ++ (match p with
        | [] => []
        | c :: cs => if c = '/' then c :: cs else '/' :: c :: cs))
    else p
  let u2 := if s ≠ [] then s ++ ':' :: u1 else u1
  let u3 := if q ≠ [] then u2 ++ '?' :: q else u2
  if f ≠ [] then u3 ++ '#' :: f else u3

/-- `canonical_url`: re-assemble scheme, netloc, path+params and query
with the fragment dropped; `none` models the `ValueError` of `urlparse`. -/
def canonical_url (u : Str) : Option Str :=
  match urlsplitM u with
  | none => none
  | some r => some (urlunsplitM r.scheme r.netloc (paramAdjust r.scheme r.path) r.query [])

/-- Modelled from the spec: "stripping only the fragment from a URL" —
everything before the first `#`. -/
def stripFragment (u : Str) : Str := u.takeWhile (fun c => !(c = '#'))

/-! ### `refresh_cache` (src/app.py:464-525) -/

structure Details where
  title : Option Str := none
  image_url : Option Str := none
  price_text : Option Str := none
  beds : Option ℤ := none
  baths : Option ℤ := none
  cars : Option ℤ := none
  land_text : Option Str := none
  property_type : Option Str := none
  suburb_postcode : Option Str := none
deriving DecidableEq

structure Item where
  title : Option Str
  url : Str
deriving DecidableEq

structure Cache where
  ts : ℚ
  listings : List Listing
  by_id : List (Str × Listing)
deriving DecidableEq

/-- The network environment one refresh runs against: the outcome of each
source's search fetch and of its per-URL detail extraction.  `none`
models a raised exception (`FetchFailure`/`RenderingUnavailable`). -/
structure Env where
  raywhite_search : Option (List Item)
  raywhite_parse : Str → Option Details
  domain_search : Option (List Item)
  domain_parse : Str → Option Details
  rea_search : Option (List Item)
  rea_parse : Str → Option Details

def emptyDetails : Details := {}

/-- Python `a or b` for an optional string (`None` and `""` are falsy). -/
def strOr (a : Option Str) (b : Str) : Str :=
  match a with
  | some (c :: cs) => c :: cs
  | _ => b

/-- One Listing as `refresh_cache` builds it (src/app.py:490-511). -/
def buildListing (source_name url lid : Str) (item : Item) (details : Details) : Listing :=
  { id := lid, source := source_name,
    title := strOr details.title (strOr item.title url),
    url := url,
    image_url := details.image_url,
    price_text := details.price_text,
    price_num := parse_money_best_effort details.price_text,
    beds := details.beds, baths := details.baths, cars := details.cars,
    land_text := details.land_text,
    land_m2 := parse_land_to_m2_best_effort details.land_text,
    property_type := details.property_type,
    suburb_postcode := details.suburb_postcode }

/-- Process the discovered items of one source: canonicalize (an uncaught
canonicalization error aborts the refresh), call `parse_fn` (one fetch
call per item; an exception is caught, `details = {}`), build the Listing.
Returns the listings (`none` = abort) and the number of parse calls. -/
def processItems (source_name : Str) (parse_fn : Str → Option Details) :
    List Item → Option (List Listing) × Nat
  | [] => (some [], 0)
  | item :: rest =>
    match canonical_url item.url with
    | none => (none, 0)
    | some url =>
      let lid := make_id url
      let details := (parse_fn url).getD emptyDetails
      match processItems source_name parse_fn rest with
      | (none, n) => (none, n + 1)
      | (some ls, n) => (some (buildListing source_name url lid item details :: ls), n + 1)

/-- Python dict insertion (`{l.id: l for l in deduped}`). -/
def dictInsert (m : List (Str × Listing)) (k : Str) (v : Listing) : List (Str × Listing) :=
  match m with
  | [] => [(k, v)]
  | (k2, v2) :: rest => if k2 = k then (k, v) :: rest else (k2, v2) :: dictInsert rest k v

def buildById (ls : List Listing) : List (Str × Listing) :=
  ls.foldl (fun m l => dictInsert m l.id l) []

/-- Python dict lookup (`_cache["by_id"].get(listing_id)`). -/
def dictGet (m : List (Str × Listing)) (k : Str) : Option Listing :=
  match m with
  | [] => none
  | (k2, v) :: rest => if k2 = k then some v else dictGet rest k

def CACHE_TTL_SECONDS : ℚ := 1800

/-- `refresh_cache(force)`: the TTL guard (`now - ts < TTL` **and** a
non-empty listing set, src/app.py:466), then the three sources in order —
a failing search (or a canonicalization error) aborts the whole refresh, a
failing per-listing extraction is caught — then dedup and the atomic cache
replacement.  Returns the new cache (`none` = the refresh raised) and how
many search/parse network calls were performed. -/
def refresh_cache (env : Env) (now : ℚ) (force : Bool) (cache : Cache) :
    Option Cache × Nat :=
  if force = false ∧ qsub now cache.ts < CACHE_TTL_SECONDS ∧ cache.listings ≠ [] then
    (some cache, 0)
  else
    match env.raywhite_search with
    | none => (none, 1)
    | some items1 =>
      match processItems (str "raywhite") env.raywhite_parse items1 with
      | (none, n1) => (none, 1 + n1)
      | (some ls1, n1) =>
        match env.domain_search with
        | none => (none, 2 + n1)
        | some items2 =>
          match processItems (str "domain") env.domain_parse items2 with
          | (none, n2) => (none, 2 + n1 + n2)
          | (some ls2, n2) =>
            match env.rea_search with
            | none => (none, 3 + n1 + n2)
            | some items3 =>
              match processItems (str "rea") env.rea_parse items3 with
              | (none, n3) => (none, 3 + n1 + n2 + n3)
              | (some ls3, n3) =>
                let deduped := dedupListings (ls1 ++ ls2 ++ ls3)
                (some { ts := now, listings := deduped, by_id := buildById deduped },
                 3 + n1 + n2 + n3)

/-! ### Claim theorems: the refresh pipeline -/

def emptyCache : Cache := { ts := 0, listings := [], by_id := [] }

/-- Discovery items for the end-to-end scenario: one URL per source, with
distinguishable titles. -/
def itemRW : Item :=
  { title := some (str "1 Alpha St, Gladstone QLD 4680"),
    url := str "https://raywhite.x/properties/1" }

def itemDM : Item :=
  { title := some (str "2 Beta St, Gladstone QLD 4680"),
    url := str "https://domain.x/listing-2000001" }

def itemRE : Item :=
  { title := some (str "3 Gamma St, Gladstone QLD 4680"),
    url := str "https://rea.x/property-land-3" }

def detRW : Details :=
  { title := some (str "1 Alpha St, Gladstone QLD 4680"),
    price_text := some (str "Offers Over $450,000"),
    land_text := some (str "1,200m2") }

def detRE : Details :=
  { title := some (str "3 Gamma St, Gladstone QLD 4680"),
    price_text := some (str "$399,000"),
    land_text := some (str "0.5ha") }

/-- The C4 scenario: every source discovers one URL; the domain
extraction raises a fetch error; the other two succeed. -/
def env4 : Env :=
  { raywhite_search := some [itemRW], raywhite_parse := fun _ => some detRW,
    domain_search := some [itemDM], domain_parse := fun _ => none,
    rea_search := some [itemRE], rea_parse := fun _ => some detRE }

/-- An environment whose first source's discover (search) raises. -/
def env3bad : Env :=
  { raywhite_search := none, raywhite_parse := fun _ => none,
    domain_search := some [], domain_parse := fun _ => none,
    rea_search := some [], rea_parse := fun _ => none }

/-- All three searches succeed with no items (no parse calls). -/
def envEmptySearches : Env :=
  { raywhite_search := some [], raywhite_parse := fun _ => none,
    domain_search := some [], domain_parse := fun _ => none,
    rea_search := some [], rea_parse := fun _ => none }

/-- A fresh, non-empty cache for the C5 witness. -/
def freshCache : Cache :=
  { ts := 0, listings := [demoListingA], by_id := [(demoListingA.id, demoListingA)] }

/-- The single-source environment used by the C9 witness. -/
def env9 : Env :=
  { raywhite_search := some [itemRW], raywhite_parse := fun _ => some detRW,
    domain_search := some [], domain_parse := fun _ => none,
    rea_search := some [], rea_parse := fun _ => none }

/-- The first listing the C9 witness refresh produces. -/
def c9demoListing : Listing :=
  (((refresh_cache env9 1 true emptyCache).1.getD emptyCache).listings).headD demoListingA

/-! ### Phase lemmas for the urlsplit embedding -/

def headAlpha (l : Str) : Bool :=
  match l with
  | [] => false
  | c :: _ => isAsciiAlpha c

/-- Scheme detection succeeds on `v`. -/
def detectOK (v : Str) : Prop :=
  ∃ a b, splitFirst ':' v = some (a, b) ∧ a ≠ [] ∧ headAlpha a = true
    ∧ a.all schemeChar = true

theorem qmul_eq_mul (x y : ℚ) : qmul x y = x * y := by
  rw [qmul, Rat.mkRat_eq_div]
  push_cast
  rw [← div_mul_div_comm, Rat.num_div_den, Rat.num_div_den]

theorem qsub_eq_sub (x y : ℚ) : qsub x y = x - y := by
  have hx : ((x.den : ℚ)) ≠ 0 := Nat.cast_ne_zero.mpr x.den_nz
  have hy : ((y.den : ℚ)) ≠ 0 := Nat.cast_ne_zero.mpr y.den_nz
  conv_rhs => rw [← Rat.num_div_den x, ← Rat.num_div_den y]
  rw [div_sub_div _ _ hx hy, qsub, Rat.mkRat_eq_div]
  push_cast
  ring_nf

/-! ### Stability and missing-value placement of the sort -/

/-- Inserting `x` moves it past only elements whose key differs from the
key of `x`, so the sublist of a fixed key value gains `x` at the front
exactly when `x` carries that key. -/
theorem filter_orderedInsert {α β : Type} [DecidableEq β] (r : α → α → Prop) [DecidableRel r]
    (f : α → β) (hkey : ∀ a b, ¬ r a b → f b ≠ f a) (x : α) (v : β) :
    ∀ s : List α, (List.orderedInsert r x s).filter (fun z => decide (f z = v)) =
      if f x = v then x :: s.filter (fun z => decide (f z = v))
      else s.filter (fun z => decide (f z = v))
  | [] => by by_cases h : f x = v <;> simp [List.orderedInsert, h]
  | y :: s => by
    by_cases hr : r x y
    · by_cases h : f x = v <;> simp [List.orderedInsert, hr, h]
    · have hne : f y ≠ f x := hkey x y hr
      have ih := filter_orderedInsert r f hkey x v s
      by_cases h : f x = v
      · have hyv : ¬ (f y = v) := fun hh => hne (hh.trans h.symm)
        simp [List.orderedInsert, hr, h, hyv, ih]
      · by_cases hy : f y = v <;> simp [List.orderedInsert, hr, h, hy, ih]

/-- Stability of the embedded sort: for every key value, the sublist of
elements carrying that key is unchanged by sorting. -/
theorem filter_insertionSort {α β : Type} [DecidableEq β] (r : α → α → Prop) [DecidableRel r]
    (f : α → β) (hkey : ∀ a b, ¬ r a b → f b ≠ f a) (v : β) :
    ∀ l : List α, (List.insertionSort r l).filter (fun z => decide (f z = v)) =
      l.filter (fun z => decide (f z = v))
  | [] => rfl
  | x :: l => by
    have ih := filter_insertionSort r f hkey v l
    rw [List.insertionSort, filter_orderedInsert r f hkey x v]
    by_cases h : f x = v <;> simp [h, ih]

/-- A sorted list whose order pushes `bad` elements to absorb everything
after them decomposes as the good elements followed by the bad ones. -/
theorem sorted_partition {α : Type} (r : α → α → Prop) (bad : α → Bool)
    (hab : ∀ a b, bad a = true → r a b → bad b = true) :
    ∀ l : List α, List.Sorted r l → l = l.filter (fun z => !bad z) ++ l.filter bad
  | [], _ => rfl
  | x :: t, h => by
    rcases List.sorted_cons.mp h with ⟨hx, ht⟩
    by_cases hb : bad x = true
    · have hall : ∀ y ∈ t, bad y = true := fun y hy => hab x y hb (hx y hy)
      have h1 : t.filter (fun z => !bad z) = [] :=
        List.filter_eq_nil_iff.mpr (fun a ha => by simp [hall a ha])
      have h2 : t.filter bad = t := List.filter_eq_self.mpr hall
      simp [hb, h1, h2]
    · have ih := sorted_partition r bad hab t ht
      have hb' : bad x = false := by simpa using hb
      simp only [List.filter_cons, hb']
      simpa using ih

/-- The ascending relations are total and transitive. -/
theorem skey_total_asc {α : Type} (f : α → EKey) :
    IsTotal α (fun a b => f a ≤ f b) := ⟨fun a b => le_total (f a) (f b)⟩

theorem skey_trans_asc {α : Type} (f : α → EKey) :
    IsTrans α (fun a b => f a ≤ f b) := ⟨fun _ _ _ hab hbc => le_trans hab hbc⟩

theorem skey_total_desc {α : Type} (f : α → EKey) :
    IsTotal α (fun a b => f b ≤ f a) := ⟨fun a b => (le_total (f b) (f a))⟩

theorem skey_trans_desc {α : Type} (f : α → EKey) :
    IsTrans α (fun a b => f b ≤ f a) := ⟨fun _ _ _ hab hbc => le_trans hbc hab⟩

theorem skeyTop_eq_top_iff (o : Option ℚ) : skeyTop o = (⊤ : EKey) ↔ o = none := by
  cases o with
  | none => simp [skeyTop]
  | some q =>
    simp only [skeyTop]
    constructor
    · intro h
      exact absurd (WithBot.coe_injective h) (WithTop.coe_ne_top)
    · intro h; cases h

theorem skeyBot_eq_bot_iff (o : Option ℚ) : skeyBot o = (⊥ : EKey) ↔ o = none := by
  cases o with
  | none => simp [skeyBot]
  | some q => simp [skeyBot]

/-- Missing-last for an ascending branch: missing keys are `⊤`, which
absorbs everything `≥` it. -/
theorem partition_asc {α : Type} (g : α → Option ℚ) (l : List α) :
    List.insertionSort (fun a b => skeyTop (g a) ≤ skeyTop (g b)) l =
      (List.insertionSort (fun a b => skeyTop (g a) ≤ skeyTop (g b)) l).filter
          (fun z => !(g z).isNone)
        ++ (List.insertionSort (fun a b => skeyTop (g a) ≤ skeyTop (g b)) l).filter
          (fun z => (g z).isNone) := by
  apply sorted_partition (fun a b => skeyTop (g a) ≤ skeyTop (g b)) (fun z => (g z).isNone)
  · intro a b ha hr
    have ha' : g a = none := by cases hga : g a <;> simp [hga] at ha ⊢
    rw [(skeyTop_eq_top_iff (g a)).mpr ha'] at hr
    have hb : g b = none := (skeyTop_eq_top_iff (g b)).mp (top_le_iff.mp hr)
    simp [hb]
  · exact @List.sorted_insertionSort _ _ _ (skey_total_asc _) (skey_trans_asc _) l

/-- Missing-last for a descending branch: missing keys are `⊥`, which
absorbs everything the order places after it. -/
theorem partition_desc {α : Type} (g : α → Option ℚ) (l : List α) :
    List.insertionSort (fun a b => skeyBot (g b) ≤ skeyBot (g a)) l =
      (List.insertionSort (fun a b => skeyBot (g b) ≤ skeyBot (g a)) l).filter
          (fun z => !(g z).isNone)
        ++ (List.insertionSort (fun a b => skeyBot (g b) ≤ skeyBot (g a)) l).filter
          (fun z => (g z).isNone) := by
  apply sorted_partition (fun a b => skeyBot (g b) ≤ skeyBot (g a)) (fun z => (g z).isNone)
  · intro a b ha hr
    have ha' : g a = none := by cases hga : g a <;> simp [hga] at ha ⊢
    rw [(skeyBot_eq_bot_iff (g a)).mpr ha'] at hr
    have hb : g b = none := (skeyBot_eq_bot_iff (g b)).mp (le_bot_iff.mp hr)
    simp [hb]
  · exact @List.sorted_insertionSort _ _ _ (skey_total_desc _) (skey_trans_desc _) l

/-- Complete characterization of the dedup pass: for every key value the
output keeps exactly the first input listing with that key. -/
theorem filter_dedupGo (v : Str) : ∀ (seen : List Str) (ls : List Listing),
    (dedupListings.go seen ls).filter (fun l => decide (dedupKey l = v)) =
      if v ∈ seen then [] else (ls.filter (fun l => decide (dedupKey l = v))).take 1
  | _, [] => by split <;> rfl
  | seen, l :: ls => by
    have ih := fun seen2 => filter_dedupGo v seen2 ls
    by_cases hm : dedupKey l ∈ seen
    · rw [dedupListings.go, if_pos hm, ih seen]
      by_cases hv : v ∈ seen
      · simp [hv]
      · have hne : ¬ (dedupKey l = v) := fun h => hv (h ▸ hm)
        simp [hv, hne]
    · rw [dedupListings.go, if_neg hm]
      rw [List.filter_cons]
      by_cases hlv : dedupKey l = v
      · have hv : ¬ v ∈ seen := fun h => hm (hlv ▸ h)
        have hmem : v ∈ dedupKey l :: seen := hlv ▸ List.mem_cons_self _ _
        rw [decide_eq_true hlv, if_pos rfl, ih (dedupKey l :: seen), if_pos hmem,
          if_neg hv, List.filter_cons, decide_eq_true hlv, if_pos rfl]
        rfl
      · have hmem : (v ∈ dedupKey l :: seen) ↔ (v ∈ seen) := by
          constructor
          · intro h
            rcases List.mem_cons.mp h with h1 | h2
            · exact absurd h1.symm hlv
            · exact h2
          · intro h; exact List.mem_cons_of_mem _ h
        rw [decide_eq_false hlv]
        simp only [Bool.false_eq_true, if_false]
        rw [ih (dedupKey l :: seen)]
        by_cases hv : v ∈ seen
        · rw [if_pos (hmem.mpr hv), if_pos hv]
        · rw [if_neg (fun h => hv (hmem.mp h)), if_neg hv, List.filter_cons,
            decide_eq_false hlv]
          simp

theorem filter_dedupListings (combined : List Listing) (v : Str) :
    (dedupListings combined).filter (fun l => decide (dedupKey l = v)) =
      (combined.filter (fun l => decide (dedupKey l = v))).take 1 := by
  have h := filter_dedupGo v [] combined
  simpa using h

theorem toNat_ofNatValid (n : Nat) (h : n.isValidChar) : (Char.ofNat n).toNat = n := by
  simp only [Char.ofNat, h, dif_pos]
  rfl

/-- ASCII lowering is idempotent. -/
theorem lowerChar_idem (c : Char) : lowerChar (lowerChar c) = lowerChar c := by
  unfold lowerChar
  by_cases h : isAsciiUpper c = true
  · rw [if_pos h]
    have hb : 65 ≤ c.toNat ∧ c.toNat ≤ 90 := by
      simpa [isAsciiUpper, Bool.and_eq_true, decide_eq_true_eq] using h
    have ht : (Char.ofNat (c.toNat + 32)).toNat = c.toNat + 32 :=
      toNat_ofNatValid _ (Or.inl (by omega))
    have hnu : ¬ (isAsciiUpper (Char.ofNat (c.toNat + 32)) = true) := by
      simp only [isAsciiUpper, ht, Bool.and_eq_true, decide_eq_true_eq]
      omega
    rw [if_neg hnu]
  · rw [if_neg h, if_neg h]

theorem moneyGroupAt_decomp {cs g : Str} (h : moneyGroupAt cs = some g) :
    ∃ ws d rest, cs = ws ++ d :: rest ∧ (∀ c ∈ ws, isSpacePy c = true)
      ∧ isAsciiDigit d = true := by
  unfold moneyGroupAt at h
  cases hd : cs.dropWhile isSpacePy with
  | nil => rw [hd] at h; exact absurd h (by simp)
  | cons d r =>
    rw [hd] at h
    by_cases hdig : isAsciiDigit d = true
    · refine ⟨cs.takeWhile isSpacePy, d, r, ?_, ?_, hdig⟩
      · conv_lhs => rw [← List.takeWhile_append_dropWhile (p := isSpacePy) (l := cs)]
        rw [hd]
      · intro c hc; exact List.mem_takeWhile_imp hc
    · simp [hdig] at h

theorem moneyScan_hasDollar : ∀ {t g : Str}, moneyScan t = some g → hasDollarAmount t := by
  intro t
  induction t with
  | nil => intro g h; exact absurd h (by simp [moneyScan])
  | cons c cs ih =>
    intro g h
    rw [moneyScan] at h
    by_cases hc : c = '$'
    · rw [if_pos hc] at h
      cases hg : moneyGroupAt cs with
      | some g2 =>
        obtain ⟨ws, d, rest, hcs, hws, hd⟩ := moneyGroupAt_decomp hg
        exact ⟨[], ws, d, rest, by simp [hc, hcs], hws, hd⟩
      | none =>
        simp only [hg] at h
        obtain ⟨pre, ws, d, rest, hcs, hws, hd⟩ := ih h
        exact ⟨c :: pre, ws, d, rest, by simp [hcs], hws, hd⟩
    · rw [if_neg hc] at h
      obtain ⟨pre, ws, d, rest, hcs, hws, hd⟩ := ih h
      exact ⟨c :: pre, ws, d, rest, by simp [hcs], hws, hd⟩

theorem moneyScan_none_of_not {t : Str} (hnd : ¬ hasDollarAmount t) : moneyScan t = none := by
  cases hs : moneyScan t with
  | none => rfl
  | some g => exact absurd (moneyScan_hasDollar hs) hnd

/-! ### Claim theorems: normalization -/

/-- **C1** (the code contradicts the claim at `"1012m²"`): the deployed
pattern contains the corrupted bytes `m¬≤`, so genuine `m²` text never
matches and `parse_land_to_m2_best_effort("1012m²")` is `None`; the other
behaviours the claim lists hold (`"0.5ha"` → `5000.0`, `"2 acres"` →
`8093.7128448`, `m2` spellings work, unrecognized units → `None`). -/
theorem c1_land_parsing_eval :
    parse_land_to_m2_best_effort (some (str "1012m²")) = none
    ∧ parse_land_to_m2_best_effort (some (str "0.5ha")) = some 5000
    ∧ parse_land_to_m2_best_effort (some (str "2 acres")) = some ((80937128448 : ℚ) / 10000000)
    ∧ parse_land_to_m2_best_effort (some (str "1012m2")) = some 1012
    ∧ parse_land_to_m2_best_effort (some (str "1,012 sqm")) = none := by
  refine ⟨by decide, by decide, ?_, by decide, by decide⟩
  have h : parse_land_to_m2_best_effort (some (str "2 acres"))
      = some (mkRat 80937128448 10000000) := by decide
  rw [h, Rat.mkRat_eq_div]
  norm_num

/-- **C2** counterexample: the two example titles do *not* normalize to the
same dedup key — `normalize_title` strips the region tokens but keeps the
postcode digits `4680`. -/
theorem c2_counterexample :
    ¬ (normalize_title (str "5 Example St, Gladstone QLD 4680")
        = normalize_title (str "5 EXAMPLE ST GLADSTONE")) := by decide

/-- **C2** amended: `normalize_title` strips region tokens and punctuation
and is case-insensitive, but retains digits, so the claim's second title
must carry the postcode too (`"5 EXAMPLE ST GLADSTONE 4680"`) to collapse
with the first; and for each dedup key value the dedup pass keeps exactly
the first (earlier-source) listing carrying it. -/
theorem c2_title_dedup :
    (normalize_title (str "5 Example St, Gladstone QLD 4680")
        = str "5 example st gladstone 4680"
      ∧ normalize_title (str "5 EXAMPLE ST GLADSTONE 4680")
        = str "5 example st gladstone 4680")
    ∧ (∀ s : Str, normalize_title (s.map lowerChar) = normalize_title s)
    ∧ (∀ (combined : List Listing) (v : Str),
        (dedupListings combined).filter (fun l => decide (dedupKey l = v)) =
          (combined.filter (fun l => decide (dedupKey l = v))).take 1) := by
  refine ⟨⟨by decide, by decide⟩, ?_, filter_dedupListings⟩
  intro s
  have h1 : (s.map lowerChar).map lowerChar = s.map lowerChar := by
    rw [List.map_map]
    exact List.map_congr_left (fun a _ => lowerChar_idem a)
  simp only [normalize_title]
  rw [h1]

/-- **C7**: money parsing extracts the first `$`-anchored amount
(`"$450,000"` → `450000.0`, `"Offers Over $399,000"` → `399000.0`), text
without any `$`-prefixed digit sequence yields `None`, and a matched group
whose comma-stripped residue is not numeric (more than one dot) yields
`None`. -/
theorem c7_money_parsing :
    parse_money_best_effort (some (str "$450,000")) = some 450000
    ∧ parse_money_best_effort (some (str "Offers Over $399,000")) = some 399000
    ∧ (∀ t : Str, ¬ hasDollarAmount t → parse_money_best_effort (some t) = none)
    ∧ (∀ t g : Str, moneyScan t = some g →
        1 < (pyStrip (g.filter (fun c => !(c = ',')))).count '.' →
        parse_money_best_effort (some t) = none) := by
  refine ⟨by decide, by decide, ?_, ?_⟩
  · intro t hnd
    cases t with
    | nil => rfl
    | cons c cs =>
      show parse_money_core (c :: cs) = none
      unfold parse_money_core
      rw [moneyScan_none_of_not hnd]
  · intro t g hsc hdots
    cases t with
    | nil => rfl
    | cons c cs =>
      show parse_money_core (c :: cs) = none
      unfold parse_money_core
      rw [hsc]
      have hfle : ¬ ((pyStrip (g.filter (fun c => !(c = ',')))).count '.' ≤ 1) := by omega
      simp [floatOfDigits, hfle]

/-- Witness for C7: a text with no dollar amount, and one whose residue is
non-numeric. -/
theorem c7_money_parsing_witness :
    parse_money_best_effort (some (str "price on application")) = none
    ∧ parse_money_best_effort (some (str "$1.2.3")) = none := by
  constructor
  · apply c7_money_parsing.2.2.1
    rintro ⟨pre, ws, d, rest, heq, -, -⟩
    have hmem : '$' ∈ str "price on application" := by
      rw [heq]
      exact List.mem_append_right _ (List.mem_cons_self _ _)
    exact absurd hmem (by decide)
  · exact c7_money_parsing.2.2.2 (str "$1.2.3") (str "1.2.3") (by decide) (by decide)

/-! ### Claim theorems: sorting -/

/-- **C6**: `price_asc` and `price_desc` both place listings with an absent
`price_num` strictly after every listing with a numeric price (the output
is the numeric-price listings, in order, followed by the absent-price
listings), and every sort key is stable: for every key value, the sublist
of listings carrying that key value is exactly the input's. -/
theorem c6_sort_missing_last_and_stable (l : List Listing) :
    (sort_listings l (str "price_asc") =
        (sort_listings l (str "price_asc")).filter (fun z => !z.price_num.isNone)
          ++ (sort_listings l (str "price_asc")).filter (fun z => z.price_num.isNone))
    ∧ (sort_listings l (str "price_desc") =
        (sort_listings l (str "price_desc")).filter (fun z => !z.price_num.isNone)
          ++ (sort_listings l (str "price_desc")).filter (fun z => z.price_num.isNone))
    ∧ ∀ (k : Str) (v : EKey),
        (sort_listings l k).filter (fun z => decide (sortKeyOf k z = v)) =
          l.filter (fun z => decide (sortKeyOf k z = v)) := by
  refine ⟨?_, ?_, ?_⟩
  · have e : sort_listings l (str "price_asc")
        = List.insertionSort (fun a b => skeyTop a.price_num ≤ skeyTop b.price_num) l := rfl
    rw [e]
    exact partition_asc (fun z => z.price_num) l
  · have e : sort_listings l (str "price_desc")
        = List.insertionSort (fun a b => skeyBot b.price_num ≤ skeyBot a.price_num) l := rfl
    rw [e]
    exact partition_desc (fun z => z.price_num) l
  · intro k v
    by_cases h1 : k = str "newest"
    · subst h1; rfl
    by_cases h2 : k = str "price_asc"
    · subst h2
      exact filter_insertionSort _ (fun z => skeyTop z.price_num)
        (fun a b h => (lt_of_not_le h).ne) v l
    by_cases h3 : k = str "price_desc"
    · subst h3
      exact filter_insertionSort _ (fun z => skeyBot z.price_num)
        (fun a b h => (lt_of_not_le h).ne') v l
    by_cases h4 : k = str "land_asc"
    · subst h4
      exact filter_insertionSort _ (fun z => skeyTop z.land_m2)
        (fun a b h => (lt_of_not_le h).ne) v l
    by_cases h5 : k = str "land_desc"
    · subst h5
      exact filter_insertionSort _ (fun z => skeyBot z.land_m2)
        (fun a b h => (lt_of_not_le h).ne') v l
    by_cases h6 : k = str "beds_asc"
    · subst h6
      exact filter_insertionSort _ (fun z => skeyTop (qOfInt z.beds))
        (fun a b h => (lt_of_not_le h).ne) v l
    by_cases h7 : k = str "beds_desc"
    · subst h7
      exact filter_insertionSort _ (fun z => skeyBot (qOfInt z.beds))
        (fun a b h => (lt_of_not_le h).ne') v l
    by_cases h8 : k = str "baths_asc"
    · subst h8
      exact filter_insertionSort _ (fun z => skeyTop (qOfInt z.baths))
        (fun a b h => (lt_of_not_le h).ne) v l
    by_cases h9 : k = str "baths_desc"
    · subst h9
      exact filter_insertionSort _ (fun z => skeyBot (qOfInt z.baths))
        (fun a b h => (lt_of_not_le h).ne') v l
    simp only [sort_listings, if_neg h1, if_neg h2, if_neg h3, if_neg h4, if_neg h5,
      if_neg h6, if_neg h7, if_neg h8, if_neg h9]

/-- **C10**: `newest` and every unrecognized key return the input in its
original order, and every sort key returns a permutation of the input (the
embedding is pure: `sorted` builds a new list, the identity branches
return the input unchanged). -/
theorem c10_sort_keys (l : List Listing) :
    sort_listings l (str "newest") = l
    ∧ (∀ k : Str, ¬ k ∈ recognizedSortKeys → sort_listings l k = l)
    ∧ ∀ k : Str, (sort_listings l k).Perm l := by
  refine ⟨rfl, ?_, ?_⟩
  · intro k hk
    simp only [recognizedSortKeys, List.mem_cons, List.not_mem_nil, or_false] at hk
    push_neg at hk
    obtain ⟨h1, h2, h3, h4, h5, h6, h7, h8, h9⟩ := hk
    simp only [sort_listings, if_neg h1, if_neg h2, if_neg h3, if_neg h4, if_neg h5,
      if_neg h6, if_neg h7, if_neg h8, if_neg h9]
  · intro k
    by_cases h1 : k = str "newest"
    · subst h1; exact List.Perm.refl l
    by_cases h2 : k = str "price_asc"
    · subst h2; exact List.perm_insertionSort _ l
    by_cases h3 : k = str "price_desc"
    · subst h3; exact List.perm_insertionSort _ l
    by_cases h4 : k = str "land_asc"
    · subst h4; exact List.perm_insertionSort _ l
    by_cases h5 : k = str "land_desc"
    · subst h5; exact List.perm_insertionSort _ l
    by_cases h6 : k = str "beds_asc"
    · subst h6; exact List.perm_insertionSort _ l
    by_cases h7 : k = str "beds_desc"
    · subst h7; exact List.perm_insertionSort _ l
    by_cases h8 : k = str "baths_asc"
    · subst h8; exact List.perm_insertionSort _ l
    by_cases h9 : k = str "baths_desc"
    · subst h9; exact List.perm_insertionSort _ l
    have e : sort_listings l k = l := by
      simp only [sort_listings, if_neg h1, if_neg h2, if_neg h3, if_neg h4, if_neg h5,
        if_neg h6, if_neg h7, if_neg h8, if_neg h9]
    rw [e]

/-- Witness for C10: the unrecognized key `"cars_asc"` is an identity sort,
and a recognized key permutes the demo list. -/
theorem c10_sort_keys_witness :
    sort_listings demoListings (str "cars_asc") = demoListings
    ∧ (sort_listings demoListings (str "price_desc")).Perm demoListings :=
  ⟨(c10_sort_keys demoListings).2.1 (str "cars_asc") (by decide),
   (c10_sort_keys demoListings).2.2 (str "price_desc")⟩

theorem processItems_ok (source_name : Str) (parse_fn : Str → Option Details) :
    ∀ items : List Item, (∀ it ∈ items, canonical_url it.url ≠ none) →
      ∃ ls n, processItems source_name parse_fn items = (some ls, n)
  | [], _ => ⟨[], 0, rfl⟩
  | item :: rest, h => by
    obtain ⟨ls, n, ih⟩ := processItems_ok source_name parse_fn rest
      (fun it hit => h it (List.mem_cons_of_mem _ hit))
    have hcu := h item (List.mem_cons_self _ _)
    cases hc : canonical_url item.url with
    | none => exact absurd hc hcu
    | some url =>
      exact ⟨buildListing source_name url (make_id url) item ((parse_fn url).getD emptyDetails)
        :: ls, n + 1, by rw [processItems, hc, ih]⟩

/-- **C3** counterexample: a discover (search) failure *does* abort the
refresh — with the first source's search raising, `refresh_cache` raises
after one network call instead of completing. -/
theorem c3_counterexample :
    (refresh_cache env3bad 0 true emptyCache).1 = none
    ∧ (refresh_cache env3bad 0 true emptyCache).2 = 1 := by decide

/-- **C3** amended: when every source's discover succeeds (and every
discovered URL canonicalizes without error), the refresh never aborts,
regardless of how many per-listing extractions fail — extraction failures
are caught per listing.  A discover failure, by contrast, propagates
(see the counterexample). -/
theorem c3_extraction_failures_never_abort (env : Env) (now : ℚ) (force : Bool)
    (cache : Cache) (i1 i2 i3 : List Item)
    (h1 : env.raywhite_search = some i1) (h2 : env.domain_search = some i2)
    (h3 : env.rea_search = some i3)
    (hc : ∀ it ∈ i1 ++ i2 ++ i3, canonical_url it.url ≠ none) :
    (refresh_cache env now force cache).1 ≠ none := by
  unfold refresh_cache
  split
  · simp
  · obtain ⟨ls1, n1, e1⟩ := processItems_ok (str "raywhite") env.raywhite_parse i1
      (fun it hit => hc it (List.mem_append_left _ (List.mem_append_left _ hit)))
    obtain ⟨ls2, n2, e2⟩ := processItems_ok (str "domain") env.domain_parse i2
      (fun it hit => hc it (List.mem_append_left _ (List.mem_append_right _ hit)))
    obtain ⟨ls3, n3, e3⟩ := processItems_ok (str "rea") env.rea_parse i3
      (fun it hit => hc it (List.mem_append_right _ hit))
    simp only [h1, e1, h2, e2, h3, e3]
    simp

/-- Witness for C3: the scenario environment (one extraction failing)
completes. -/
theorem c3_witness : (refresh_cache env4 0 true emptyCache).1 ≠ none :=
  c3_extraction_failures_never_abort env4 0 true emptyCache [itemRW] [itemDM] [itemRE]
    rfl rfl rfl (by decide)

/-- **C4** counterexample: in the three-source scenario with one failed
extraction, the cache ends with **three** listings, not two — the failed
candidate is kept with its discovery-time title and URL. -/
theorem c4_counterexample :
    ¬ ((refresh_cache env4 0 true emptyCache).1.map (fun c => c.listings.length) = some 2)
    ∧ (refresh_cache env4 0 true emptyCache).1.map (fun c => c.listings.length) = some 3 := by
  decide

/-- **C4** amended: the scenario's refresh succeeds with exactly three
listings (the failed extraction keeps the discovery-time title and URL),
each carrying an id of length 10 derived from its canonical URL, each
resolved by the cache's `by_id` index. -/
theorem c4_scenario :
    (refresh_cache env4 0 true emptyCache).1.map
        (fun c => (c.listings.length,
          c.listings.all (fun l =>
            l.id == make_id l.url && l.id.length == 10 && (dictGet c.by_id l.id == some l))))
      = some (3, true) := by decide

/-- **C5** counterexample: a cache refreshed less than TTL ago whose
listing set is empty is *not* protected by the TTL guard — the refresh
performs its network calls again and updates the cache. -/
theorem c5_counterexample :
    qsub 1 emptyCache.ts < CACHE_TTL_SECONDS
    ∧ ¬ (refresh_cache envEmptySearches 1 false emptyCache = (some emptyCache, 0)) := by decide

/-- **C5** amended: with a **non-empty** cache refreshed less than TTL
ago, `refresh(force=False)` is a no-op making no network calls (so a
second in-window call fetches nothing); `refresh(force=True)` ignores the
cache state entirely (its result is the same for every cache state) and
always performs network calls (at least the first search). -/
theorem c5_ttl (env : Env) (now : ℚ) (cache : Cache) :
    (qsub now cache.ts < CACHE_TTL_SECONDS → cache.listings ≠ [] →
      refresh_cache env now false cache = (some cache, 0))
    ∧ (∀ cache2 : Cache, refresh_cache env now true cache = refresh_cache env now true cache2)
    ∧ 1 ≤ (refresh_cache env now true cache).2 := by
  refine ⟨?_, ?_, ?_⟩
  · intro hts hne
    unfold refresh_cache
    rw [if_pos ⟨rfl, hts, hne⟩]
  · intro cache2
    unfold refresh_cache
    rw [if_neg (fun h => Bool.noConfusion h.1), if_neg (fun h => Bool.noConfusion h.1)]
  · unfold refresh_cache
    rw [if_neg (fun h => Bool.noConfusion h.1)]
    repeat' split
    all_goals simp <;> omega

theorem c5_ttl_witness :
    refresh_cache envEmptySearches 1 false freshCache = (some freshCache, 0) :=
  (c5_ttl envEmptySearches 1 freshCache).1 (by decide) (by decide)

theorem processItems_inv (source_name : Str) (parse_fn : Str → Option Details) :
    ∀ (items : List Item) (ls : List Listing) (n : Nat),
      processItems source_name parse_fn items = (some ls, n) →
      ∀ l ∈ ls, l.price_num = parse_money_best_effort l.price_text
        ∧ l.land_m2 = parse_land_to_m2_best_effort l.land_text
  | [], ls, n, h => by
    simp only [processItems, Prod.mk.injEq, Option.some.injEq] at h
    rw [← h.1]
    intro l hl
    exact absurd hl (List.not_mem_nil l)
  | item :: rest, ls, n, h => by
    rw [processItems] at h
    cases hc : canonical_url item.url with
    | none => rw [hc] at h; simp at h
    | some url =>
      rw [hc] at h
      cases hp : processItems source_name parse_fn rest with
      | mk ols m =>
        cases ols with
        | none => rw [hp] at h; simp at h
        | some ls2 =>
          rw [hp] at h
          simp only [Prod.mk.injEq, Option.some.injEq] at h
          rw [← h.1]
          intro l hl
          rcases List.mem_cons.mp hl with hhead | htail
          · subst hhead
            exact ⟨rfl, rfl⟩
          · exact processItems_inv source_name parse_fn rest ls2 m hp l htail

theorem dedupGo_subset {l : Listing} :
    ∀ (seen : List Str) (xs : List Listing), l ∈ dedupListings.go seen xs → l ∈ xs
  | seen, [], h => absurd h (List.not_mem_nil l)
  | seen, x :: xs, h => by
    rw [dedupListings.go] at h
    by_cases hm : dedupKey x ∈ seen
    · rw [if_pos hm] at h
      exact List.mem_cons_of_mem _ (dedupGo_subset seen xs h)
    · rw [if_neg hm] at h
      rcases List.mem_cons.mp h with hh | ht
      · exact hh ▸ List.mem_cons_self _ _
      · exact List.mem_cons_of_mem _ (dedupGo_subset _ xs ht)

/-- **C9**: every listing a (rebuilding) refresh places in the cache has
`price_num` equal to the money normalization of its own `price_text` and
`land_m2` equal to the area normalization of its own `land_text` — the
numeric fields are never set independently of their text sources. -/
theorem c9_numeric_from_text (env : Env) (now : ℚ) (force : Bool) (cache c2 : Cache)
    (n : Nat) (h : refresh_cache env now force cache = (some c2, n))
    (hrb : ¬ (force = false ∧ qsub now cache.ts < CACHE_TTL_SECONDS ∧ cache.listings ≠ [])) :
    ∀ l ∈ c2.listings, l.price_num = parse_money_best_effort l.price_text
      ∧ l.land_m2 = parse_land_to_m2_best_effort l.land_text := by
  unfold refresh_cache at h
  rw [if_neg hrb] at h
  split at h
  · exact absurd h (by simp)
  · rename_i items1 h1
    split at h
    · exact absurd h (by simp)
    · rename_i ls1 n1 h2
      split at h
      · exact absurd h (by simp)
      · rename_i items2 h3
        split at h
        · exact absurd h (by simp)
        · rename_i ls2 n2 h4
          split at h
          · exact absurd h (by simp)
          · rename_i items3 h5
            split at h
            · exact absurd h (by simp)
            · rename_i ls3 n3 h6
              simp only [Prod.mk.injEq, Option.some.injEq] at h
              rw [← h.1]
              intro l hl
              have hcomb : l ∈ ls1 ++ ls2 ++ ls3 := dedupGo_subset [] _ hl
              rcases List.mem_append.mp hcomb with h12 | hin3
              · rcases List.mem_append.mp h12 with hin1 | hin2
                · exact processItems_inv _ _ items1 ls1 n1 h2 l hin1
                · exact processItems_inv _ _ items2 ls2 n2 h4 l hin2
              · exact processItems_inv _ _ items3 ls3 n3 h6 l hin3

theorem c9_numeric_from_text_witness :
    c9demoListing.price_num = parse_money_best_effort c9demoListing.price_text
    ∧ c9demoListing.land_m2 = parse_land_to_m2_best_effort c9demoListing.land_text :=
  c9_numeric_from_text env9 1 true emptyCache
    ((refresh_cache env9 1 true emptyCache).1.getD emptyCache)
    (refresh_cache env9 1 true emptyCache).2
    (by decide) (by decide) c9demoListing (by decide)

theorem splitFirst_sound {t : Char} : ∀ {l a b : Str}, splitFirst t l = some (a, b) →
    l = a ++ t :: b ∧ t ∉ a
  | [], a, b, h => by simp [splitFirst] at h
  | c :: cs, a, b, h => by
    rw [splitFirst] at h
    by_cases hc : c = t
    · rw [if_pos hc] at h
      simp only [Option.some.injEq, Prod.mk.injEq] at h
      rw [← h.1, ← h.2, hc]
      exact ⟨rfl, List.not_mem_nil t⟩
    · rw [if_neg hc] at h
      cases hsf : splitFirst t cs with
      | none => rw [hsf] at h; simp at h
      | some pr =>
        rw [hsf] at h
        obtain ⟨p1, p2⟩ := pr
        simp only [Option.map_some', Option.some.injEq, Prod.mk.injEq] at h
        obtain ⟨hsound, hnm⟩ := splitFirst_sound hsf
        refine ⟨?_, ?_⟩
        · rw [← h.1, ← h.2, hsound]
          rfl
        · rw [← h.1]
          intro hmem
          rcases List.mem_cons.mp hmem with he | hm
          · exact hc he.symm
          · exact hnm hm

theorem splitFirst_none_iff {t : Char} : ∀ {l : Str}, splitFirst t l = none ↔ t ∉ l
  | [] => by simp [splitFirst]
  | c :: cs => by
    rw [splitFirst]
    by_cases hc : c = t
    · simp [hc]
    · simp only [if_neg hc, List.mem_cons]
      rw [Option.map_eq_none']
      rw [splitFirst_none_iff]
      constructor
      · intro h hm
        rcases hm with he | hm
        · exact hc he.symm
        · exact h hm
      · intro h hm
        exact h (Or.inr hm)

theorem splitFirst_append {t : Char} : ∀ {a : Str} (b : Str), t ∉ a →
    splitFirst t (a ++ t :: b) = some (a, b)
  | [], b, _ => by simp [splitFirst]
  | c :: cs, b, h => by
    have hc : ¬ (c = t) := fun he => h (he ▸ List.mem_cons_self _ _)
    rw [List.cons_append, splitFirst, if_neg hc,
      splitFirst_append b (fun hm => h (List.mem_cons_of_mem _ hm))]
    rfl

theorem takeWhile_eq_self (p : Char → Bool) : ∀ {l : Str}, (∀ c ∈ l, p c = true) →
    l.takeWhile p = l
  | [], _ => rfl
  | c :: cs, h => by
    rw [List.takeWhile_cons, if_pos (h c (List.mem_cons_self _ _)),
      takeWhile_eq_self p (fun x hx => h x (List.mem_cons_of_mem _ hx))]

theorem takeWhile_append_all (p : Char → Bool) : ∀ (l t : Str), (∀ c ∈ l, p c = true) →
    (l ++ t).takeWhile p = l ++ t.takeWhile p
  | [], t, _ => rfl
  | c :: cs, t, h => by
    rw [List.cons_append, List.takeWhile_cons, if_pos (h c (List.mem_cons_self _ _)),
      takeWhile_append_all p cs t (fun x hx => h x (List.mem_cons_of_mem _ hx))]
    rfl

theorem dropWhile_append_all (p : Char → Bool) : ∀ (l t : Str), (∀ c ∈ l, p c = true) →
    (l ++ t).dropWhile p = t.dropWhile p
  | [], t, _ => rfl
  | c :: cs, t, h => by
    rw [List.cons_append, List.dropWhile_cons, if_pos (h c (List.mem_cons_self _ _)),
      dropWhile_append_all p cs t (fun x hx => h x (List.mem_cons_of_mem _ hx))]

theorem takeWhile_stop_append (p : Char → Bool) : ∀ {l : Str} (t : Str),
    (∃ c ∈ l, p c = false) → (l ++ t).takeWhile p = l.takeWhile p
  | [], t, h => by simp at h
  | x :: xs, t, h => by
    by_cases hx : p x = true
    · obtain ⟨c, hcm, hcf⟩ := h
      have hcm2 : c ∈ xs := by
        rcases List.mem_cons.mp hcm with he | hm
        · rw [he] at hcf; rw [hcf] at hx; exact absurd hx (by simp)
        · exact hm
      rw [List.cons_append, List.takeWhile_cons, if_pos hx, List.takeWhile_cons, if_pos hx,
        takeWhile_stop_append (p := p) t ⟨c, hcm2, hcf⟩]
    · have hx2 : p x = false := by simpa using hx
      rw [List.cons_append, List.takeWhile_cons, if_neg hx, List.takeWhile_cons, if_neg hx]

theorem splitFirst_fst_takeWhile {t : Char} {l a b : Str} (h : splitFirst t l = some (a, b)) :
    a = l.takeWhile (fun c => !(c = t)) := by
  obtain ⟨hl, hnm⟩ := splitFirst_sound h
  have hall : ∀ c ∈ a, (fun c => !(c = t)) c = true := by
    intro c hc
    simp only [Bool.not_eq_true']
    exact decide_eq_false (fun he => hnm (he ▸ hc))
  rw [hl, takeWhile_append_all _ a _ hall, List.takeWhile_cons]
  simp

theorem dropWhile_takeWhile_comm (p q : Char → Bool) (hpq : ∀ c, p c = true → q c = true) :
    ∀ l : Str, (l.takeWhile q).dropWhile p = (l.dropWhile p).takeWhile q
  | [] => rfl
  | c :: cs => by
    by_cases hp : p c = true
    · rw [List.takeWhile_cons, if_pos (hpq c hp), List.dropWhile_cons, if_pos hp,
        List.dropWhile_cons, if_pos hp, dropWhile_takeWhile_comm p q hpq cs]
    · by_cases hq : q c = true
      · rw [List.takeWhile_cons, if_pos hq, List.dropWhile_cons, if_neg hp,
          List.dropWhile_cons, if_neg hp, List.takeWhile_cons, if_pos hq]
      · rw [List.takeWhile_cons, if_neg hq, List.dropWhile_cons, if_neg hp,
          List.takeWhile_cons, if_neg hq]
        rfl

theorem filter_takeWhile_comm (f q : Char → Bool) (hfq : ∀ c, f c = false → q c = true) :
    ∀ l : Str, (l.takeWhile q).filter f = (l.filter f).takeWhile q
  | [] => rfl
  | c :: cs => by
    by_cases hf : f c = true
    · by_cases hq : q c = true
      · rw [List.takeWhile_cons, if_pos hq, List.filter_cons, if_pos hf, List.filter_cons,
          if_pos hf, List.takeWhile_cons, if_pos hq, filter_takeWhile_comm f q hfq cs]
      · have hq2 : q c = false := by simpa using hq
        rw [List.takeWhile_cons, if_neg hq, List.filter_cons, if_pos hf,
          List.takeWhile_cons, if_neg hq]
        rfl
    · have hf2 : f c = false := by simpa using hf
      rw [List.takeWhile_cons, if_pos (hfq c hf2), List.filter_cons, if_neg hf,
        List.filter_cons, if_neg hf, filter_takeWhile_comm f q hfq cs]

theorem takeWhile_takeWhile_of (p q : Char → Bool) (hpq : ∀ c, p c = true → q c = true) :
    ∀ l : Str, (l.takeWhile q).takeWhile p = l.takeWhile p
  | [] => rfl
  | c :: cs => by
    by_cases hq : q c = true
    · rw [List.takeWhile_cons, if_pos hq, List.takeWhile_cons, List.takeWhile_cons,
        takeWhile_takeWhile_of p q hpq cs]
    · have hp : ¬ (p c = true) := fun h => hq (hpq c h)
      rw [List.takeWhile_cons, if_neg hq, List.takeWhile_cons, if_neg hp]
      rfl

theorem dropWhile_shape (p : Char → Bool) : ∀ l : Str,
    l.dropWhile p = [] ∨ ∃ c t, l.dropWhile p = c :: t ∧ p c = false
  | [] => Or.inl rfl
  | c :: cs => by
    by_cases hp : p c = true
    · rw [List.dropWhile_cons, if_pos hp]
      exact dropWhile_shape p cs
    · rw [List.dropWhile_cons, if_neg hp]
      exact Or.inr ⟨c, cs, rfl, by simpa using hp⟩

theorem takeWhile_head {p : Char → Bool} : ∀ {l : Str} {c : Char} {t : Str},
    l.takeWhile p = c :: t → ∃ t2, l = c :: t2 ∧ p c = true
  | [], c, t, h => by simp at h
  | x :: xs, c, t, h => by
    by_cases hp : p x = true
    · rw [List.takeWhile_cons, if_pos hp] at h
      have hx : x = c := (List.cons.injEq _ _ _ _ ▸ h).1
      exact ⟨xs, by rw [hx], hx ▸ hp⟩
    · rw [List.takeWhile_cons, if_neg hp] at h
      simp at h

/-! ### Character-class and lowering facts -/

theorem unsafe_cases {c : Char} (h : isUnsafeUrlChar c = true) :
    c = '\t' ∨ c = '\r' ∨ c = '\n' := by
  have h2 : (c = '\t' ∨ c = '\r') ∨ c = '\n' := by
    simpa [isUnsafeUrlChar, Bool.or_eq_true, decide_eq_true_eq] using h
  exact or_assoc.mp h2

theorem unsafe_isC0 {c : Char} (h : isUnsafeUrlChar c = true) : isC0OrSpace c = true := by
  rcases unsafe_cases h with h1 | h1 | h1 <;> subst h1 <;> decide

theorem alpha_not_C0 {c : Char} (h : isAsciiAlpha c = true) : isC0OrSpace c = false := by
  simp only [isAsciiAlpha, isAsciiUpper, isAsciiLower, Bool.or_eq_true, Bool.and_eq_true,
    decide_eq_true_eq] at h
  simp only [isC0OrSpace, decide_eq_false_iff_not]
  omega

theorem schemeChar_not_unsafe {c : Char} (h : schemeChar c = true) :
    isUnsafeUrlChar c = false := by
  by_cases hu : isUnsafeUrlChar c = true
  · rcases unsafe_cases hu with h1 | h1 | h1 <;> subst h1 <;> exact absurd h (by decide)
  · simpa using hu

theorem lowerChar_toNat (c : Char) :
    (isAsciiUpper c = true ∧ (lowerChar c).toNat = c.toNat + 32)
    ∨ (isAsciiUpper c = false ∧ lowerChar c = c) := by
  by_cases h : isAsciiUpper c = true
  · left
    refine ⟨h, ?_⟩
    have hb : 65 ≤ c.toNat ∧ c.toNat ≤ 90 := by
      simpa [isAsciiUpper, Bool.and_eq_true, decide_eq_true_eq] using h
    rw [lowerChar, if_pos h]
    exact toNat_ofNatValid _ (Or.inl (by omega))
  · right
    exact ⟨by simpa using h, by rw [lowerChar, if_neg h]⟩

theorem lowerChar_alpha {c : Char} (h : isAsciiAlpha c = true) :
    isAsciiAlpha (lowerChar c) = true := by
  rcases lowerChar_toNat c with ⟨hu, ht⟩ | ⟨hu, he⟩
  · have hb : 65 ≤ c.toNat ∧ c.toNat ≤ 90 := by
      simpa [isAsciiUpper, Bool.and_eq_true, decide_eq_true_eq] using hu
    simp only [isAsciiAlpha, isAsciiUpper, isAsciiLower, ht, Bool.or_eq_true, Bool.and_eq_true,
      decide_eq_true_eq]
    omega
  · rw [he]
    exact h

theorem lowerChar_schemeChar {c : Char} (h : schemeChar c = true) :
    schemeChar (lowerChar c) = true := by
  rcases lowerChar_toNat c with ⟨hu, _⟩ | ⟨_, he⟩
  · have ha : isAsciiAlpha (lowerChar c) = true :=
      lowerChar_alpha (by simp [isAsciiAlpha, hu])
    simp [schemeChar, ha]
  · rw [he]
    exact h

theorem schemeSplit_of_not_detect {u : Str} (h : ¬ detectOK u) : schemeSplit u = ([], u) := by
  cases hsf : splitFirst ':' u with
  | none => simp only [schemeSplit, hsf]
  | some pr =>
    obtain ⟨a, b⟩ := pr
    cases a with
    | nil => simp only [schemeSplit, hsf]
    | cons c cs =>
      simp only [schemeSplit, hsf]
      rw [if_neg]
      intro hcond
      exact h ⟨c :: cs, b, hsf, by simp, by simpa [headAlpha] using hcond.1, hcond.2⟩

theorem detect_of_schemeSplit {u s r : Str} (h : schemeSplit u = (s, r)) (hne : s ≠ []) :
    ∃ a, splitFirst ':' u = some (a, r) ∧ s = a.map lowerChar ∧ a ≠ []
      ∧ headAlpha a = true ∧ a.all schemeChar = true := by
  cases hsf : splitFirst ':' u with
  | none =>
    simp only [schemeSplit, hsf, Prod.mk.injEq] at h
    exact absurd h.1.symm hne
  | some pr =>
    obtain ⟨a, b⟩ := pr
    cases a with
    | nil =>
      simp only [schemeSplit, hsf, Prod.mk.injEq] at h
      exact absurd h.1.symm hne
    | cons c cs =>
      simp only [schemeSplit, hsf] at h
      by_cases hcond : isAsciiAlpha c = true ∧ (c :: cs).all schemeChar = true
      · rw [if_pos hcond] at h
        simp only [Prod.mk.injEq] at h
        exact ⟨c :: cs, by rw [h.2], h.1.symm, by simp,
          by simpa [headAlpha] using hcond.1, hcond.2⟩
      · rw [if_neg hcond] at h
        simp only [Prod.mk.injEq] at h
        exact absurd h.1.symm hne

theorem schemeSplit_build {s r : Str} (hne : s ≠ []) (hha : headAlpha s = true)
    (hsc : s.all schemeChar = true) (hfix : s.map lowerChar = s) :
    schemeSplit (s ++ ':' :: r) = (s, r) := by
  have hnc : ':' ∉ s := by
    intro hm
    have h2 := List.all_eq_true.mp hsc _ hm
    exact absurd h2 (by decide)
  cases s with
  | nil => exact absurd rfl hne
  | cons c cs =>
    have hsp : splitFirst ':' ((c :: cs) ++ ':' :: r) = some (c :: cs, r) :=
      splitFirst_append r hnc
    rw [List.cons_append] at hsp
    simp only [schemeSplit, List.cons_append, hsp]
    rw [if_pos ⟨by simpa [headAlpha] using hha, hsc⟩]
    rw [show (c :: cs).map lowerChar = c :: cs from hfix]

theorem not_detect_of_head {v : Str} {c : Char} {t : Str} (hv : v = c :: t)
    (hc : isAsciiAlpha c = false) : ¬ detectOK v := by
  rintro ⟨a, b, hsp, hne, hha, _⟩
  obtain ⟨hsound, _⟩ := splitFirst_sound hsp
  cases a with
  | nil => exact hne rfl
  | cons a0 asx =>
    rw [hv] at hsound
    have ha0 : a0 = c := by
      have := (List.cons.injEq _ _ _ _ ▸ hsound).1
      exact this.symm
    rw [headAlpha, ha0, hc] at hha
    exact Bool.noConfusion hha

theorem not_detect_nil : ¬ detectOK [] := by
  rintro ⟨a, b, hsp, -, -, -⟩
  simp [splitFirst] at hsp

/-! ### splitKeep lemmas -/

theorem splitKeep_fst (t : Char) (x : Str) :
    (splitKeep t x).1 = x.takeWhile (fun c => !(c = t)) := by
  cases hsf : splitFirst t x with
  | none =>
    simp only [splitKeep, hsf]
    refine (takeWhile_eq_self _ (fun c hc => ?_)).symm
    have hnm := splitFirst_none_iff.mp hsf
    simp only [Bool.not_eq_true']
    exact decide_eq_false (fun he => hnm (he ▸ hc))
  | some pr =>
    obtain ⟨a, b⟩ := pr
    simp only [splitKeep, hsf]
    exact splitFirst_fst_takeWhile hsf

theorem splitKeep_of_not_mem {t : Char} {x : Str} (h : ¬ t ∈ x) : splitKeep t x = (x, []) := by
  rw [splitKeep, splitFirst_none_iff.mpr h]

theorem splitKeep_fst_not_mem (t : Char) (x : Str) : ¬ t ∈ (splitKeep t x).1 := by
  rw [splitKeep_fst]
  intro hm
  have := List.mem_takeWhile_imp hm
  simp at this

theorem splitKeep_fst_sub {t : Char} {c : Char} {x : Str} (h : c ∈ (splitKeep t x).1) :
    c ∈ x := by
  rw [splitKeep_fst] at h
  exact (List.takeWhile_sublist _).subset h

theorem splitKeep_snd_sub {t : Char} {c : Char} {x : Str} (h : c ∈ (splitKeep t x).2) :
    c ∈ x := by
  cases hsf : splitFirst t x with
  | none => rw [splitKeep, hsf] at h; simp at h
  | some pr =>
    obtain ⟨a, b⟩ := pr
    rw [splitKeep, hsf] at h
    rw [(splitFirst_sound hsf).1]
    simp only [List.mem_append, List.mem_cons]
    exact Or.inr (Or.inr h)

theorem splitKeep_append_snd {t : Char} {a : Str} (b : Str) (h : ¬ t ∈ a) :
    splitKeep t (a ++ t :: b) = (a, b) := by
  rw [splitKeep, splitFirst_append b h]

/-! ### netlocPhase lemmas -/

theorem startsSS_shape {l : Str} (h : startsSS l = true) : ∃ t, l = '/' :: '/' :: t := by
  match l with
  | [] => exact absurd h (by simp [startsSS])
  | [c] => exact absurd h (by simp [startsSS])
  | c1 :: c2 :: t =>
    simp only [startsSS, Bool.and_eq_true, decide_eq_true_eq] at h
    exact ⟨t, by rw [h.1, h.2]⟩

theorem netlocPhase_of_not_ss {l : Str} (h : startsSS l = false) : netlocPhase l = ([], l) := by
  rw [netlocPhase, if_neg]
  simp [h]

theorem netlocPhase_ss (r2 : Str) : netlocPhase ('/' :: '/' :: r2) = splitnetloc r2 := rfl

theorem takeWhile_takeWhile_stop (p q : Char → Bool) : ∀ l : Str,
    (∃ c ∈ l.takeWhile q, p c = false) → (l.takeWhile q).takeWhile p = l.takeWhile p
  | [], h => by simp at h
  | x :: xs, h => by
    by_cases hq : q x = true
    · rw [List.takeWhile_cons, if_pos hq] at h
      by_cases hp : p x = true
      · have hwit : ∃ c ∈ xs.takeWhile q, p c = false := by
          obtain ⟨c, hcm, hcf⟩ := h
          rcases List.mem_cons.mp hcm with he | hm
          · rw [he, hp] at hcf; exact absurd hcf (by simp)
          · exact ⟨c, hm, hcf⟩
        rw [List.takeWhile_cons, if_pos hq, List.takeWhile_cons, if_pos hp,
          List.takeWhile_cons, if_pos hp, takeWhile_takeWhile_stop p q xs hwit]
      · rw [List.takeWhile_cons, if_pos hq, List.takeWhile_cons, if_neg hp,
          List.takeWhile_cons, if_neg hp]
    · rw [List.takeWhile_cons, if_neg hq] at h
      simp at h

theorem splitFirst_of_mem {t : Char} {l : Str} (h : t ∈ l) :
    ∃ b, splitFirst t l = some (l.takeWhile (fun c => !(c = t)), b) := by
  cases hs : splitFirst t l with
  | none => exact absurd h (splitFirst_none_iff.mp hs)
  | some pr =>
    obtain ⟨a, b⟩ := pr
    exact ⟨b, by rw [splitFirst_fst_takeWhile hs]⟩

theorem schemeSplit_of_detect {u : Str} (h : detectOK u) :
    ∃ a b, splitFirst ':' u = some (a, b) ∧ schemeSplit u = (a.map lowerChar, b) := by
  obtain ⟨a, b, hsf, hne, hha, hsc⟩ := h
  refine ⟨a, b, hsf, ?_⟩
  cases a with
  | nil => exact absurd rfl hne
  | cons c cs =>
    simp only [schemeSplit, hsf]
    rw [if_pos ⟨by simpa [headAlpha] using hha, hsc⟩]

theorem preclean_strip (u : Str) :
    precleanUrl (stripFragment u) = (precleanUrl u).takeWhile (fun c => !(c = '#')) := by
  rw [precleanUrl, precleanUrl, stripFragment]
  rw [dropWhile_takeWhile_comm isC0OrSpace (fun c => !(c = '#'))
    (fun c h => by
      simp only [Bool.not_eq_true', decide_eq_false_iff_not]
      intro he
      subst he
      exact absurd h (by decide))]
  rw [filter_takeWhile_comm (fun c => !isUnsafeUrlChar c) (fun c => !(c = '#'))
    (fun c h => by
      have hu : isUnsafeUrlChar c = true := by simpa using h
      simp only [Bool.not_eq_true', decide_eq_false_iff_not]
      intro he
      subst he
      exact absurd hu (by decide))]

theorem schemeSplit_strip (w : Str) :
    schemeSplit (w.takeWhile (fun c => !(c = '#')))
      = ((schemeSplit w).1, (schemeSplit w).2.takeWhile (fun c => !(c = '#'))) := by
  by_cases hd : detectOK w
  · obtain ⟨a, b, hsf2, hne, hha, hsc⟩ := hd
    have heq : schemeSplit w = (a.map lowerChar, b) := by
      obtain ⟨a3, b3, hsf3, heq3⟩ := schemeSplit_of_detect ⟨a, b, hsf2, hne, hha, hsc⟩
      rw [hsf2] at hsf3
      simp only [Option.some.injEq, Prod.mk.injEq] at hsf3
      rw [heq3, hsf3.1, hsf3.2]
    obtain ⟨hsound, hnc⟩ := splitFirst_sound hsf2
    have hhash : ∀ c ∈ a, (fun c => !(c = '#')) c = true := by
      intro c hc
      have h2 := List.all_eq_true.mp hsc _ hc
      simp only [Bool.not_eq_true', decide_eq_false_iff_not]
      intro he
      subst he
      exact absurd h2 (by decide)
    have htw : w.takeWhile (fun c => !(c = '#'))
        = a ++ ':' :: b.takeWhile (fun c => !(c = '#')) := by
      rw [hsound, takeWhile_append_all _ a _ hhash, List.takeWhile_cons]
      simp
    have hdet2 : detectOK (w.takeWhile (fun c => !(c = '#'))) := by
      refine ⟨a, b.takeWhile (fun c => !(c = '#')), ?_, hne, hha, hsc⟩
      rw [htw]
      exact splitFirst_append _ hnc
    obtain ⟨a3, b3, hsf3, heq3⟩ := schemeSplit_of_detect hdet2
    rw [htw, splitFirst_append _ hnc] at hsf3
    simp only [Option.some.injEq, Prod.mk.injEq] at hsf3
    rw [heq3, heq, hsf3.1, hsf3.2]
  · rw [schemeSplit_of_not_detect hd]
    have hd2 : ¬ detectOK (w.takeWhile (fun c => !(c = '#'))) := by
      rintro ⟨a2, b2, hsp2, hne2, hha2, hsc2⟩
      have hmemtw : ':' ∈ w.takeWhile (fun c => !(c = '#')) := by
        rw [(splitFirst_sound hsp2).1]
        exact List.mem_append_right _ (List.mem_cons_self _ _)
      have hmemw : ':' ∈ w := (List.takeWhile_sublist _).subset hmemtw
      have ha2 : a2 = (w.takeWhile (fun c => !(c = '#'))).takeWhile (fun c => !(c = ':')) :=
        splitFirst_fst_takeWhile hsp2
      have hα : (w.takeWhile (fun c => !(c = '#'))).takeWhile (fun c => !(c = ':'))
          = w.takeWhile (fun c => !(c = ':')) :=
        takeWhile_takeWhile_stop _ _ w ⟨':', hmemtw, by simp⟩
      obtain ⟨b4, hsf4⟩ := splitFirst_of_mem hmemw
      exact hd ⟨w.takeWhile (fun c => !(c = ':')), b4, hsf4,
        by rw [← hα, ← ha2]; exact hne2, by rw [← hα, ← ha2]; exact hha2,
        by rw [← hα, ← ha2]; exact hsc2⟩
    rw [schemeSplit_of_not_detect hd2]

theorem startsSS_takeWhile {r : Str} (h : startsSS r = false) :
    startsSS (r.takeWhile (fun c => !(c = '#'))) = false := by
  match r with
  | [] => exact h
  | [c] =>
    by_cases hc : (fun c => !(c = '#')) c = true
    · rw [List.takeWhile_cons, if_pos hc]
      rfl
    · rw [List.takeWhile_cons, if_neg hc]
      rfl
  | c1 :: c2 :: t =>
    by_cases hc1 : (fun c => !(c = '#')) c1 = true
    · rw [List.takeWhile_cons, if_pos hc1]
      by_cases hc2 : (fun c => !(c = '#')) c2 = true
      · rw [List.takeWhile_cons, if_pos hc2]
        exact h
      · rw [List.takeWhile_cons, if_neg hc2]
        rfl
    · rw [List.takeWhile_cons, if_neg hc1]
      rfl

theorem netlocPhase_strip (r : Str) :
    netlocPhase (r.takeWhile (fun c => !(c = '#')))
      = ((netlocPhase r).1, (netlocPhase r).2.takeWhile (fun c => !(c = '#'))) := by
  by_cases hss : startsSS r = true
  · obtain ⟨t, rfl⟩ := startsSS_shape hss
    have h1 : ('/' :: '/' :: t).takeWhile (fun c => !(c = '#'))
        = '/' :: '/' :: t.takeWhile (fun c => !(c = '#')) := by
      rw [List.takeWhile_cons, if_pos (by decide), List.takeWhile_cons, if_pos (by decide)]
    have hnd : ∀ c, nonNetlocDelim c = true → (fun c => !(c = '#')) c = true := by
      intro c hc
      simp only [Bool.not_eq_true', decide_eq_false_iff_not]
      intro he
      subst he
      exact absurd hc (by decide)
    rw [h1, netlocPhase_ss, netlocPhase_ss, splitnetloc, splitnetloc,
      takeWhile_takeWhile_of nonNetlocDelim (fun c => !(c = '#')) hnd t,
      dropWhile_takeWhile_comm nonNetlocDelim (fun c => !(c = '#')) hnd t]
  · have hss2 : startsSS r = false := by simpa using hss
    rw [netlocPhase_of_not_ss hss2, netlocPhase_of_not_ss (startsSS_takeWhile hss2)]

theorem fragSplit_strip (x : Str) :
    fragSplit (x.takeWhile (fun c => !(c = '#'))) = ((fragSplit x).1, []) := by
  have h1 : ¬ '#' ∈ x.takeWhile (fun c => !(c = '#')) := by
    intro hm
    have := List.mem_takeWhile_imp hm
    simp at this
  rw [fragSplit, fragSplit, splitKeep_of_not_mem h1, splitKeep_fst]

/-- Stripping the fragment from the raw URL splits to the same components
with an empty fragment. -/
theorem urlsplit_strip (u : Str) :
    urlsplitM (stripFragment u)
      = (urlsplitM u).map (fun r => ⟨r.scheme, r.netloc, r.path, r.query, []⟩) := by
  simp only [urlsplitM]
  rw [preclean_strip, schemeSplit_strip, netlocPhase_strip, fragSplit_strip]
  by_cases hb : bracketBad (netlocPhase (schemeSplit (precleanUrl u)).2).1 = true
  · rw [if_pos hb, if_pos hb]
    rfl
  · rw [if_neg hb, if_neg hb]
    rfl

/-- **Part of C8**: stripping only the fragment never changes the
canonical form. -/
theorem canonical_strip (u : Str) : canonical_url (stripFragment u) = canonical_url u := by
  rw [canonical_url, canonical_url, urlsplit_strip]
  cases urlsplitM u with
  | none => rfl
  | some r => rfl

/-! ### splitLast / splitparams / paramAdjust lemmas -/

theorem splitLast_sound {t : Char} {l a b : Str} (h : splitLast t l = some (a, b)) :
    l = a ++ t :: b ∧ t ∉ b := by
  rw [splitLast] at h
  cases hsf : splitFirst t l.reverse with
  | none => rw [hsf] at h; exact absurd h (by simp)
  | some pr =>
    obtain ⟨x, y⟩ := pr
    rw [hsf] at h
    simp only [Option.some.injEq, Prod.mk.injEq] at h
    obtain ⟨hsound, hnx⟩ := splitFirst_sound hsf
    have hl : l = y.reverse ++ t :: x.reverse := by
      have h2 := congrArg List.reverse hsound
      rw [List.reverse_reverse] at h2
      rw [h2]
      simp
    constructor
    · rw [hl, h.1, h.2]
    · rw [← h.2]
      intro hm
      exact hnx (List.mem_reverse.mp hm)

theorem splitLast_build {t : Char} {b : Str} (a : Str) (h : t ∉ b) :
    splitLast t (a ++ t :: b) = some (a, b) := by
  have hr : (a ++ t :: b).reverse = b.reverse ++ t :: a.reverse := by simp
  have hnb : t ∉ b.reverse := fun hm => h (List.mem_reverse.mp hm)
  rw [splitLast, hr, splitFirst_append _ hnb]
  simp

theorem splitparams_build {a b1 : Str} (hs : '/' ∉ b1) (hn : ';' ∉ b1) :
    splitparams (a ++ '/' :: b1) = (a ++ '/' :: b1, []) := by
  rw [splitparams, if_pos (List.mem_append_right _ (List.mem_cons_self _ _))]
  split
  · rfl
  · rename_i a2 b2 hsl
    rw [splitLast_build a hs] at hsl
    injection hsl with h
    injection h with ha hb
    subst ha
    subst hb
    rw [splitFirst_none_iff.mpr hn]

theorem splitparams_sound {p x y : Str} (h : splitparams p = (x, y)) :
    (x = p ∧ y = []) ∨ x ++ ';' :: y = p := by
  rw [splitparams] at h
  split at h
  · split at h
    · injection h with h1 h2
      exact Or.inl ⟨h1.symm, h2.symm⟩
    · rename_i a b hsl
      split at h
      · injection h with h1 h2
        exact Or.inl ⟨h1.symm, h2.symm⟩
      · rename_i b1 b2 hsf
        injection h with h1 h2
        right
        rw [← h1, ← h2, (splitLast_sound hsl).1, (splitFirst_sound hsf).1]
        simp
  · split at h
    · injection h with h1 h2
      exact Or.inl ⟨h1.symm, h2.symm⟩
    · rename_i a b hsf
      injection h with h1 h2
      rw [← h1, ← h2]
      exact Or.inr (splitFirst_sound hsf).1.symm

theorem paramAdjust_eq {s p x y : Str} (hc : usesParams s = true ∧ ';' ∈ p)
    (hsp : splitparams p = (x, y)) :
    paramAdjust s p = (if y = [] then x else x ++ ';' :: y) := by
  rw [paramAdjust, if_pos hc]
  split
  · rename_i a ha
    rw [hsp] at ha
    injection ha with h1 h2
    simp [h2, ← h1]
  · rename_i a c cs ha
    rw [hsp] at ha
    injection ha with h1 h2
    simp [h2, ← h1]

theorem paramAdjust_sound (s p : Str) :
    paramAdjust s p = p ∨ paramAdjust s p ++ [';'] = p := by
  by_cases hc : usesParams s = true ∧ ';' ∈ p
  · rcases hsp : splitparams p with ⟨x, y⟩
    rw [paramAdjust_eq hc hsp]
    cases y with
    | nil =>
      rw [if_pos rfl]
      rcases splitparams_sound hsp with ⟨h1, _⟩ | h2
      · exact Or.inl h1
      · exact Or.inr h2
    | cons c cs =>
      rw [if_neg (by simp)]
      rcases splitparams_sound hsp with ⟨_, h2⟩ | h2
      · exact absurd h2 (by simp)
      · exact Or.inl h2
  · rw [paramAdjust, if_neg hc]
    exact Or.inl rfl

/-- When `splitparams` cuts a trailing empty parameter part, the remaining
path is itself a `splitparams` fixed point. -/
theorem splitparams_again {p x y : Str} (h : splitparams p = (x, y)) :
    y ≠ [] ∨ x = p ∨ (x ++ [';'] = p ∧ splitparams x = (x, [])) := by
  rw [splitparams] at h
  split at h
  · split at h
    · injection h with h1 h2
      exact Or.inr (Or.inl h1.symm)
    · rename_i a b hsl
      split at h
      · injection h with h1 h2
        exact Or.inr (Or.inl h1.symm)
      · rename_i b1 b2 hsf
        injection h with h1 h2
        cases b2 with
        | cons c cs => exact Or.inl (by rw [← h2]; simp)
        | nil =>
          right; right
          obtain ⟨hpl, hnsl⟩ := splitLast_sound hsl
          obtain ⟨hbl, hnsf⟩ := splitFirst_sound hsf
          have hslb1 : '/' ∉ b1 := by
            intro hm
            exact hnsl (by rw [hbl]; exact List.mem_append_left _ hm)
          constructor
          · rw [← h1, hpl, hbl]
            simp
          · rw [← h1]
            exact splitparams_build hslb1 hnsf
  · rename_i hns
    split at h
    · injection h with h1 h2
      exact Or.inr (Or.inl h1.symm)
    · rename_i a b hsf
      injection h with h1 h2
      cases b with
      | cons c cs => exact Or.inl (by rw [← h2]; simp)
      | nil =>
        right; right
        obtain ⟨hbl, hnsf⟩ := splitFirst_sound hsf
        have hnsa : '/' ∉ a := by
          intro hm
          exact hns (by rw [hbl]; exact List.mem_append_left _ hm)
        constructor
        · rw [← h1, hbl]
        · rw [← h1, splitparams, if_neg hnsa, splitFirst_none_iff.mpr hnsf]

/-- `paramAdjust` is idempotent. -/
theorem paramAdjust_idem (s p : Str) :
    paramAdjust s (paramAdjust s p) = paramAdjust s p := by
  by_cases hc : usesParams s = true ∧ ';' ∈ p
  · rcases hsp : splitparams p with ⟨x, y⟩
    cases y with
    | cons c cs =>
      have hp2 : paramAdjust s p = p := by
        rw [paramAdjust_eq hc hsp, if_neg (by simp)]
        rcases splitparams_sound hsp with ⟨_, h2⟩ | h2
        · exact absurd h2 (by simp)
        · exact h2
      rw [hp2]
      exact hp2
    | nil =>
      have hp2 : paramAdjust s p = x := by
        rw [paramAdjust_eq hc hsp, if_pos rfl]
      rw [hp2]
      rcases splitparams_again hsp with hy | hxp | ⟨_, hsx⟩
      · exact absurd rfl hy
      · rw [hxp]
        rw [hxp] at hp2
        exact hp2
      · by_cases hcx : usesParams s = true ∧ ';' ∈ x
        · rw [paramAdjust_eq hcx hsx, if_pos rfl]
        · rw [paramAdjust, if_neg hcx]
  · have hp2 : paramAdjust s p = p := by rw [paramAdjust, if_neg hc]
    rw [hp2, hp2]

/-! ### the scheme sniff: a prefix of a non-scheme string, with an optional
query appended, still detects no scheme -/

theorem sniff_lemma {w p2 : Str} (hnd : ¬ detectOK w) (t0 : Str) (hw : p2 ++ t0 = w)
    (q : Str) : ¬ detectOK (p2 ++ (if q = [] then [] else '?' :: q)) := by
  by_cases hcol : ':' ∈ p2
  · rintro ⟨a, b, hsp, hne, hha, hsc⟩
    have ha := splitFirst_fst_takeWhile hsp
    have h1 : (p2 ++ (if q = [] then [] else '?' :: q)).takeWhile (fun c => !(c = ':'))
        = p2.takeWhile (fun c => !(c = ':')) :=
      takeWhile_stop_append _ _ ⟨':', hcol, by simp⟩
    have h2 : w.takeWhile (fun c => !(c = ':')) = p2.takeWhile (fun c => !(c = ':')) := by
      rw [← hw]
      exact takeWhile_stop_append _ _ ⟨':', hcol, by simp⟩
    have hcw : ':' ∈ w := by
      rw [← hw]
      exact List.mem_append_left _ hcol
    obtain ⟨b4, hsf4⟩ := splitFirst_of_mem hcw
    refine hnd ⟨w.takeWhile (fun c => !(c = ':')), b4, hsf4, ?_, ?_, ?_⟩
    · rw [h2, ← h1, ← ha]; exact hne
    · rw [h2, ← h1, ← ha]; exact hha
    · rw [h2, ← h1, ← ha]; exact hsc
  · rintro ⟨a, b, hsp, hne, hha, hsc⟩
    by_cases hq : q = []
    · rw [if_pos hq, List.append_nil, splitFirst_none_iff.mpr hcol] at hsp
      exact absurd hsp (by simp)
    · rw [if_neg hq] at hsp
      have ha := splitFirst_fst_takeWhile hsp
      have h3 : (p2 ++ '?' :: q).takeWhile (fun c => !(c = ':'))
          = p2 ++ ('?' :: q).takeWhile (fun c => !(c = ':')) :=
        takeWhile_append_all _ p2 _ (fun c hcm => by
          simp only [Bool.not_eq_true', decide_eq_false_iff_not]
          exact fun he => hcol (he ▸ hcm))
      have hqa : '?' ∈ a := by
        rw [ha, h3, List.takeWhile_cons, if_pos (by decide)]
        exact List.mem_append_right _ (List.mem_cons_self _ _)
      have := List.all_eq_true.mp hsc _ hqa
      exact absurd this (by decide)

/-! ### precleanUrl fixed points -/

theorem precleanUrl_eq_self {v : Str} (hc : ∀ c ∈ v, isUnsafeUrlChar c = false)
    (hh : v = [] ∨ ∃ c t, v = c :: t ∧ isC0OrSpace c = false) :
    precleanUrl v = v := by
  rw [precleanUrl]
  have hd : v.dropWhile isC0OrSpace = v := by
    rcases hh with rfl | ⟨c, t, rfl, hcf⟩
    · rfl
    · rw [List.dropWhile_cons, if_neg (by simp [hcf])]
  rw [hd, List.filter_eq_self.mpr (fun c hcm => by rw [hc c hcm]; rfl)]

theorem precleanUrl_unsafe_free (u : Str) :
    ∀ c ∈ precleanUrl u, isUnsafeUrlChar c = false := by
  intro c hcm
  rw [precleanUrl] at hcm
  have := List.of_mem_filter hcm
  simpa using this

theorem precleanUrl_head_not_C0 {u : Str} {c : Char} {t : Str}
    (h : precleanUrl u = c :: t) : isC0OrSpace c = false := by
  rw [precleanUrl] at h
  rcases dropWhile_shape isC0OrSpace u with hd | ⟨c2, t2, hd, hc2⟩
  · rw [hd] at h
    exact absurd h (by simp)
  · rw [hd] at h
    have hu2 : isUnsafeUrlChar c2 = false := by
      by_cases hu : isUnsafeUrlChar c2 = true
      · rcases unsafe_cases hu with h1 | h1 | h1 <;> subst h1 <;> exact absurd hc2 (by decide)
      · simpa using hu
    rw [List.filter_cons, if_pos (by simp [hu2])] at h
    injection h with h1 _
    rw [← h1]
    exact hc2

/-! ### evaluating urlsplitM through its phases -/

theorem urlsplitM_eval {v s0 r0 n0 rest p0 q0 : Str}
    (hpre : precleanUrl v = v)
    (hss : schemeSplit v = (s0, r0))
    (hnl : netlocPhase r0 = (n0, rest))
    (hbb : bracketBad n0 = false)
    (hrest : rest = p0 ++ (if q0 = [] then [] else '?' :: q0))
    (hpf : '#' ∉ p0) (hpq : '?' ∉ p0) (hqf : '#' ∉ q0) :
    urlsplitM v = some ⟨s0, n0, p0, q0, []⟩ := by
  have hfrag : fragSplit rest = (rest, []) := by
    apply splitKeep_of_not_mem
    rw [hrest]
    intro hm
    rcases List.mem_append.mp hm with h1 | h2
    · exact hpf h1
    · by_cases hq : q0 = []
      · rw [if_pos hq] at h2
        simp at h2
      · rw [if_neg hq] at h2
        rcases List.mem_cons.mp h2 with he | h3
        · exact absurd he (by decide)
        · exact hqf h3
  have hquery : querySplit rest = (p0, q0) := by
    rw [querySplit, hrest]
    by_cases hq : q0 = []
    · rw [if_pos hq, List.append_nil, splitKeep_of_not_mem hpq, hq]
    · rw [if_neg hq]
      exact splitKeep_append_snd q0 hpq
  simp only [urlsplitM, hpre, hss, hnl, hfrag, hquery, hbb]
  simp

theorem startsSS_append_q {p : Str} (h : startsSS p = false) (qp : Str)
    (hqp : qp = [] ∨ ∃ t, qp = '?' :: t) : startsSS (p ++ qp) = false := by
  rcases hqp with rfl | ⟨t, rfl⟩
  · rw [List.append_nil]
    exact h
  · cases p with
    | nil => cases t <;> simp [startsSS]
    | cons c cs =>
      cases cs with
      | nil => simp [startsSS]
      | cons c2 r => simpa [startsSS] using h

/-- **Round trip**: under the well-formedness conditions that hold of every
component produced by a successful parse, re-parsing the unsplit URL
recovers the components exactly. -/
theorem parse_unsplit {s n p q : Str}
    (h_s : s = [] ∨ headAlpha s = true)
    (h_s2 : s.all schemeChar = true)
    (h_s3 : s.map lowerChar = s)
    (h_n : n.all nonNetlocDelim = true)
    (h_nb : bracketBad n = false)
    (h_pf : '#' ∉ p) (h_pq : '?' ∉ p) (h_qf : '#' ∉ q)
    (h_pc : ∀ c ∈ p, isUnsafeUrlChar c = false)
    (h_qc : ∀ c ∈ q, isUnsafeUrlChar c = false)
    (h_nc : ∀ c ∈ n, isUnsafeUrlChar c = false)
    (h_slash : n ≠ [] → p = [] ∨ ∃ t, p = '/' :: t)
    (h_head : s = [] → n = [] → startsSS p = false →
      ∀ c t, p = c :: t → isC0OrSpace c = false)
    (h_sniff : s = [] → n = [] → startsSS p = false →
      ¬ detectOK (p ++ (if q = [] then [] else '?' :: q))) :
    urlsplitM (urlunsplitM s n p q []) = some ⟨s, n, p, q, []⟩ := by
  have hqc2 : ∀ c ∈ (if q = [] then ([] : Str) else '?' :: q), isUnsafeUrlChar c = false := by
    intro c hc
    by_cases hq : q = []
    · rw [if_pos hq] at hc
      simp at hc
    · rw [if_neg hq] at hc
      rcases List.mem_cons.mp hc with rfl | hc2
      · decide
      · exact h_qc c hc2
  by_cases hA : n ≠ [] ∨ startsSS p = true
  · -- netloc form: the rebuilt URL starts with (scheme:)//
    have hpa : p = [] ∨ ∃ t, p = '/' :: t := by
      rcases hA with hn2 | hss2
      · exact h_slash hn2
      · obtain ⟨t, rfl⟩ := startsSS_shape hss2
        exact Or.inr ⟨'/' :: t, rfl⟩
    have hnall : ∀ c ∈ n, nonNetlocDelim c = true := List.all_eq_true.mp h_n
    have hsh : (p ++ (if q = [] then [] else '?' :: q)) = [] ∨
        ∃ c t, (p ++ (if q = [] then [] else '?' :: q)) = c :: t ∧ nonNetlocDelim c = false := by
      rcases hpa with rfl | ⟨t, rfl⟩
      · by_cases hq : q = []
        · left
          simp [hq]
        · right
          exact ⟨'?', q, by simp [hq], by decide⟩
      · right
        exact ⟨'/', t ++ (if q = [] then [] else '?' :: q), by simp, by decide⟩
    have hstop : (p ++ (if q = [] then [] else '?' :: q)).takeWhile nonNetlocDelim = []
        ∧ (p ++ (if q = [] then [] else '?' :: q)).dropWhile nonNetlocDelim
          = p ++ (if q = [] then [] else '?' :: q) := by
      rcases hsh with he | ⟨c, t, he, hc⟩
      · rw [he]
        exact ⟨rfl, rfl⟩
      · rw [he]
        exact ⟨by rw [List.takeWhile_cons, if_neg (by simp [hc])],
          by rw [List.dropWhile_cons, if_neg (by simp [hc])]⟩
    have hnl : netlocPhase ('/' :: '/' :: (n ++ (p ++ (if q = [] then [] else '?' :: q))))
        = (n, p ++ (if q = [] then [] else '?' :: q)) := by
      rw [netlocPhase_ss, splitnetloc, takeWhile_append_all _ n _ hnall,
        dropWhile_append_all _ n _ hnall, hstop.1, hstop.2, List.append_nil]
    have hcr : ∀ c ∈ ('/' :: '/' :: (n ++ (p ++ (if q = [] then [] else '?' :: q)))),
        isUnsafeUrlChar c = false := by
      intro c hc
      rcases List.mem_cons.mp hc with rfl | hc2
      · decide
      · rcases List.mem_cons.mp hc2 with rfl | hc3
        · decide
        · rcases List.mem_append.mp hc3 with hcn | hc4
          · exact h_nc c hcn
          · rcases List.mem_append.mp hc4 with hcp | hcq
            · exact h_pc c hcp
            · exact hqc2 c hcq
    by_cases hs0 : s = []
    · subst hs0
      have hv : urlunsplitM [] n p q [] =
          '/' :: '/' :: (n ++ (p ++ (if q = [] then [] else '?' :: q))) := by
        rcases hpa with rfl | ⟨t, rfl⟩ <;> by_cases hq : q = [] <;>
          simp [urlunsplitM, hA, hq]
      rw [hv]
      have hnd : ¬ detectOK ('/' :: '/' :: (n ++ (p ++ (if q = [] then [] else '?' :: q)))) :=
        not_detect_of_head rfl (by decide)
      exact urlsplitM_eval
        (precleanUrl_eq_self hcr (Or.inr ⟨'/', _, rfl, by decide⟩))
        (schemeSplit_of_not_detect hnd)
        hnl h_nb rfl h_pf h_pq h_qf
    · have hha : headAlpha s = true := by
        rcases h_s with h0 | h0
        · exact absurd h0 hs0
        · exact h0
      have hv : urlunsplitM s n p q [] =
          s ++ ':' :: '/' :: '/' :: (n ++ (p ++ (if q = [] then [] else '?' :: q))) := by
        rcases hpa with rfl | ⟨t, rfl⟩ <;> by_cases hq : q = [] <;>
          simp [urlunsplitM, hA, hq, hs0]
      rw [hv]
      have hclean : ∀ c ∈ s ++ ':' :: '/' :: '/' :: (n ++ (p ++ (if q = [] then [] else '?' :: q))),
          isUnsafeUrlChar c = false := by
        intro c hc
        rcases List.mem_append.mp hc with hcs | hcr2
        · exact schemeChar_not_unsafe (List.all_eq_true.mp h_s2 _ hcs)
        · rcases List.mem_cons.mp hcr2 with rfl | hc3
          · decide
          · exact hcr c hc3
      have hh : ∃ c t, (s ++ ':' :: '/' :: '/' :: (n ++ (p ++ (if q = [] then [] else '?' :: q))))
          = c :: t ∧ isC0OrSpace c = false := by
        cases s with
        | nil => exact absurd rfl hs0
        | cons c cs =>
          exact ⟨c, cs ++ ':' :: '/' :: '/' :: (n ++ (p ++ (if q = [] then [] else '?' :: q))),
            by simp, alpha_not_C0 (by simpa [headAlpha] using hha)⟩
      exact urlsplitM_eval (precleanUrl_eq_self hclean (Or.inr hh))
        (schemeSplit_build hs0 hha h_s2 h_s3) hnl h_nb rfl h_pf h_pq h_qf
  · -- naked form: no netloc, path does not start with //
    have hn0 : n = [] := by
      by_contra hne
      exact hA (Or.inl hne)
    have hssp : startsSS p = false := by
      by_cases h2 : startsSS p = true
      · exact absurd (Or.inr h2) hA
      · simpa using h2
    subst hn0
    have hssb : startsSS (p ++ (if q = [] then [] else '?' :: q)) = false := by
      apply startsSS_append_q hssp
      by_cases hq : q = []
      · left
        rw [if_pos hq]
      · right
        exact ⟨q, by rw [if_neg hq]⟩
    have hnl : netlocPhase (p ++ (if q = [] then [] else '?' :: q))
        = ([], p ++ (if q = [] then [] else '?' :: q)) := netlocPhase_of_not_ss hssb
    have hcpq : ∀ c ∈ p ++ (if q = [] then [] else '?' :: q), isUnsafeUrlChar c = false := by
      intro c hc
      rcases List.mem_append.mp hc with h1 | h2
      · exact h_pc c h1
      · exact hqc2 c h2
    by_cases hs0 : s = []
    · subst hs0
      have hv : urlunsplitM [] [] p q [] = p ++ (if q = [] then [] else '?' :: q) := by
        by_cases hq : q = [] <;> simp [urlunsplitM, hssp, hq]
      rw [hv]
      have hh2 : p ++ (if q = [] then [] else '?' :: q) = [] ∨
          ∃ c t, p ++ (if q = [] then [] else '?' :: q) = c :: t ∧ isC0OrSpace c = false := by
        cases p with
        | nil =>
          by_cases hq : q = []
          · left
            simp [hq]
          · right
            exact ⟨'?', q, by simp [hq], by decide⟩
        | cons c t =>
          right
          exact ⟨c, t ++ (if q = [] then [] else '?' :: q), by simp,
            h_head rfl rfl hssp c t rfl⟩
      exact urlsplitM_eval (precleanUrl_eq_self hcpq hh2)
        (schemeSplit_of_not_detect (h_sniff rfl rfl hssp))
        hnl (by decide) rfl h_pf h_pq h_qf
    · have hha : headAlpha s = true := by
        rcases h_s with h0 | h0
        · exact absurd h0 hs0
        · exact h0
      have hv : urlunsplitM s [] p q [] =
          s ++ ':' :: (p ++ (if q = [] then [] else '?' :: q)) := by
        by_cases hq : q = [] <;> simp [urlunsplitM, hssp, hq, hs0]
      rw [hv]
      have hclean : ∀ c ∈ s ++ ':' :: (p ++ (if q = [] then [] else '?' :: q)),
          isUnsafeUrlChar c = false := by
        intro c hc
        rcases List.mem_append.mp hc with hcs | hcr2
        · exact schemeChar_not_unsafe (List.all_eq_true.mp h_s2 _ hcs)
        · rcases List.mem_cons.mp hcr2 with rfl | hc3
          · decide
          · exact hcpq c hc3
      have hh : ∃ c t, s ++ ':' :: (p ++ (if q = [] then [] else '?' :: q)) = c :: t
          ∧ isC0OrSpace c = false := by
        cases s with
        | nil => exact absurd rfl hs0
        | cons c cs =>
          exact ⟨c, cs ++ ':' :: (p ++ (if q = [] then [] else '?' :: q)), by simp,
            alpha_not_C0 (by simpa [headAlpha] using hha)⟩
      exact urlsplitM_eval (precleanUrl_eq_self hclean (Or.inr hh))
        (schemeSplit_build hs0 hha h_s2 h_s3) hnl (by decide) rfl h_pf h_pq h_qf

/-! ### extracting the components of a successful parse -/

theorem urlsplitM_inv {u : Str} {r : UrlParts} (h : urlsplitM u = some r) :
    bracketBad (netlocPhase (schemeSplit (precleanUrl u)).2).1 = false
    ∧ r = ⟨(schemeSplit (precleanUrl u)).1,
        (netlocPhase (schemeSplit (precleanUrl u)).2).1,
        (querySplit (fragSplit (netlocPhase (schemeSplit (precleanUrl u)).2).2).1).1,
        (querySplit (fragSplit (netlocPhase (schemeSplit (precleanUrl u)).2).2).1).2,
        (fragSplit (netlocPhase (schemeSplit (precleanUrl u)).2).2).2⟩ := by
  simp only [urlsplitM] at h
  split at h
  · exact absurd h (by simp)
  · rename_i hb
    refine ⟨by simpa using hb, ?_⟩
    injection h with h2
    exact h2.symm

theorem schemeSplit_fst_facts {w s r2 : Str} (h : schemeSplit w = (s, r2)) :
    (s = [] ∨ headAlpha s = true) ∧ s.all schemeChar = true ∧ s.map lowerChar = s := by
  by_cases hs : s = []
  · subst hs
    exact ⟨Or.inl rfl, rfl, rfl⟩
  · obtain ⟨a, hsf, hsa, hane, hha, hsc⟩ := detect_of_schemeSplit h hs
    subst hsa
    refine ⟨Or.inr ?_, ?_, ?_⟩
    · cases a with
      | nil => exact absurd rfl hane
      | cons c cs =>
        have hca : isAsciiAlpha c = true := by simpa [headAlpha] using hha
        simpa [headAlpha] using lowerChar_alpha hca
    · rw [List.all_map]
      apply List.all_eq_true.mpr
      intro c hc
      exact lowerChar_schemeChar (List.all_eq_true.mp hsc _ hc)
    · rw [List.map_map]
      exact List.map_congr_left (fun x _ => lowerChar_idem x)

theorem not_detect_of_schemeSplit_nil {w r2 : Str} (h : schemeSplit w = ([], r2)) :
    ¬ detectOK w := by
  rintro ⟨a, b, hsf, hne, hha, hsc⟩
  obtain ⟨a2, b2, hsf2, heq⟩ := schemeSplit_of_detect ⟨a, b, hsf, hne, hha, hsc⟩
  rw [heq] at h
  injection h with h1 h2
  cases a2 with
  | nil =>
    rw [hsf2] at hsf
    injection hsf with h3
    injection h3 with h3a h3b
    exact hne h3a.symm
  | cons c cs => exact absurd h1 (by simp)

theorem schemeSplit_nil_snd {w r2 : Str} (h : schemeSplit w = ([], r2)) : r2 = w := by
  have h2 := schemeSplit_of_not_detect (not_detect_of_schemeSplit_nil h)
  rw [h2] at h
  injection h with ha hb
  exact hb.symm

theorem schemeSplit_snd_sub {w s r2 : Str} (h : schemeSplit w = (s, r2)) :
    ∀ c, c ∈ r2 → c ∈ w := by
  by_cases hs : s = []
  · subst hs
    rw [schemeSplit_nil_snd h]
    exact fun c hc => hc
  · obtain ⟨a, hsf, hsa, _, _, _⟩ := detect_of_schemeSplit h hs
    intro c hc
    rw [(splitFirst_sound hsf).1]
    exact List.mem_append_right _ (List.mem_cons_of_mem _ hc)

theorem netlocPhase_fst_facts {r2 n rest : Str} (h : netlocPhase r2 = (n, rest)) :
    n.all nonNetlocDelim = true := by
  by_cases hss : startsSS r2 = true
  · obtain ⟨t, rfl⟩ := startsSS_shape hss
    rw [netlocPhase_ss, splitnetloc] at h
    injection h with h1 h2
    rw [← h1]
    apply List.all_eq_true.mpr
    intro c hc
    exact List.mem_takeWhile_imp hc
  · rw [netlocPhase_of_not_ss (by simpa using hss)] at h
    injection h with h1 h2
    rw [← h1]
    rfl

theorem netlocPhase_fst_sub {r2 n rest : Str} (h : netlocPhase r2 = (n, rest)) :
    ∀ c, c ∈ n → c ∈ r2 := by
  by_cases hss : startsSS r2 = true
  · obtain ⟨t, rfl⟩ := startsSS_shape hss
    rw [netlocPhase_ss, splitnetloc] at h
    injection h with h1 h2
    intro c hc
    rw [← h1] at hc
    exact List.mem_cons_of_mem _ (List.mem_cons_of_mem _ ((List.takeWhile_sublist _).subset hc))
  · rw [netlocPhase_of_not_ss (by simpa using hss)] at h
    injection h with h1 h2
    intro c hc
    rw [← h1] at hc
    simp at hc

theorem netlocPhase_snd_sub {r2 n rest : Str} (h : netlocPhase r2 = (n, rest)) :
    ∀ c, c ∈ rest → c ∈ r2 := by
  by_cases hss : startsSS r2 = true
  · obtain ⟨t, rfl⟩ := startsSS_shape hss
    rw [netlocPhase_ss, splitnetloc] at h
    injection h with h1 h2
    intro c hc
    rw [← h2] at hc
    exact List.mem_cons_of_mem _ (List.mem_cons_of_mem _ ((List.dropWhile_sublist _).subset hc))
  · rw [netlocPhase_of_not_ss (by simpa using hss)] at h
    injection h with h1 h2
    intro c hc
    rw [← h2] at hc
    exact hc

theorem paramAdjust_nil (s : Str) : paramAdjust s [] = [] := by
  rw [paramAdjust, if_neg]
  rintro ⟨-, hm⟩
  simp at hm

theorem paramAdjust_head {s p0 : Str} (h : p0 = [] ∨ ∃ t, p0 = '/' :: t) :
    paramAdjust s p0 = [] ∨ ∃ t, paramAdjust s p0 = '/' :: t := by
  rcases h with rfl | ⟨t, hp⟩
  · exact Or.inl (paramAdjust_nil s)
  · rcases paramAdjust_sound s p0 with he | he
    · exact Or.inr ⟨t, by rw [he, hp]⟩
    · cases hpa : paramAdjust s p0 with
      | nil =>
        rw [hpa] at he
        rw [hp] at he
        simp at he
      | cons d ds =>
        rw [hpa] at he
        rw [hp, List.cons_append] at he
        injection he with h1 h2
        exact Or.inr ⟨ds, by rw [h1]⟩

/-- In the `//netloc` branch the parsed path is empty or starts with `/`. -/
theorem path_head_of_ss {t n rest pq1 p0 : Str}
    (hnr : netlocPhase ('/' :: '/' :: t) = (n, rest))
    (hpq1e : pq1 = rest.takeWhile (fun c => !(c = '#')))
    (hp0e : p0 = pq1.takeWhile (fun c => !(c = '?'))) :
    p0 = [] ∨ ∃ t2, p0 = '/' :: t2 := by
  rw [netlocPhase_ss, splitnetloc] at hnr
  injection hnr with h1 h2
  rcases dropWhile_shape nonNetlocDelim t with hd | ⟨c, t2, hd, hc⟩
  · left
    rw [hp0e, hpq1e, ← h2, hd]
    rfl
  · have hc3 : c = '/' ∨ c = '?' ∨ c = '#' := by
      have h4 := hc
      simp [nonNetlocDelim] at h4
      by_cases h5 : c = '/'
      · exact Or.inl h5
      · by_cases h6 : c = '?'
        · exact Or.inr (Or.inl h6)
        · exact Or.inr (Or.inr (h4 h5 h6))
    rcases hc3 with rfl | rfl | rfl
    · right
      rw [hp0e, hpq1e, ← h2, hd, List.takeWhile_cons, if_pos (by decide),
        List.takeWhile_cons, if_pos (by decide)]
      exact ⟨_, rfl⟩
    · left
      rw [hp0e, hpq1e, ← h2, hd, List.takeWhile_cons, if_pos (by decide),
        List.takeWhile_cons, if_neg (by decide)]
    · left
      rw [hp0e, hpq1e, ← h2, hd, List.takeWhile_cons, if_neg (by decide)]
      rfl

/-- **Q-lemma**: the canonical components of any successful parse satisfy
the round-trip conditions, so re-parsing the canonical URL recovers them. -/
theorem canonical_roundtrip {u : Str} {r : UrlParts} (h : urlsplitM u = some r) :
    urlsplitM (urlunsplitM r.scheme r.netloc (paramAdjust r.scheme r.path) r.query [])
      = some ⟨r.scheme, r.netloc, paramAdjust r.scheme r.path, r.query, []⟩ := by
  obtain ⟨hbb, hr⟩ := urlsplitM_inv h
  rcases hsr : schemeSplit (precleanUrl u) with ⟨s, r2⟩
  rcases hnr : netlocPhase r2 with ⟨n, rest⟩
  rcases hcf : fragSplit rest with ⟨pq1, frag⟩
  rcases hpq : querySplit pq1 with ⟨p0, q0⟩
  simp only [hsr, hnr, hcf, hpq] at hbb hr
  subst hr
  show urlsplitM (urlunsplitM s n (paramAdjust s p0) q0 [])
    = some ⟨s, n, paramAdjust s p0, q0, []⟩
  have hpq1e : pq1 = rest.takeWhile (fun c => !(c = '#')) := by
    have h1 : (fragSplit rest).1 = pq1 := by rw [hcf]
    rw [← h1, fragSplit, splitKeep_fst]
  have hp0e : p0 = pq1.takeWhile (fun c => !(c = '?')) := by
    have h1 : (querySplit pq1).1 = p0 := by rw [hpq]
    rw [← h1, querySplit, splitKeep_fst]
  have hpq1f : '#' ∉ pq1 := by
    intro hm
    have h1 : (fragSplit rest).1 = pq1 := by rw [hcf]
    rw [← h1, fragSplit] at hm
    exact splitKeep_fst_not_mem '#' rest hm
  have hp0q : '?' ∉ p0 := by
    intro hm
    have h1 : (querySplit pq1).1 = p0 := by rw [hpq]
    rw [← h1, querySplit] at hm
    exact splitKeep_fst_not_mem '?' pq1 hm
  have hq0sub : ∀ c, c ∈ q0 → c ∈ pq1 := by
    intro c hc
    have h1 : (querySplit pq1).2 = q0 := by rw [hpq]
    rw [← h1] at hc
    exact splitKeep_snd_sub hc
  have hp0sub : ∀ c, c ∈ p0 → c ∈ pq1 := by
    intro c hc
    rw [hp0e] at hc
    exact (List.takeWhile_sublist _).subset hc
  have hpq1sub : ∀ c, c ∈ pq1 → c ∈ rest := by
    intro c hc
    rw [hpq1e] at hc
    exact (List.takeWhile_sublist _).subset hc
  have hp2sub : ∀ c, c ∈ paramAdjust s p0 → c ∈ p0 := by
    rcases paramAdjust_sound s p0 with he | he
    · rw [he]
      exact fun c hc => hc
    · intro c hc
      rw [← he]
      exact List.mem_append_left _ hc
  have huc : ∀ c ∈ precleanUrl u, isUnsafeUrlChar c = false := precleanUrl_unsafe_free u
  have hr2sub : ∀ c, c ∈ r2 → c ∈ precleanUrl u := schemeSplit_snd_sub hsr
  have hrestsub : ∀ c, c ∈ rest → c ∈ r2 := netlocPhase_snd_sub hnr
  have hnsub : ∀ c, c ∈ n → c ∈ r2 := netlocPhase_fst_sub hnr
  obtain ⟨hf1, hf2, hf3⟩ := schemeSplit_fst_facts hsr
  have hslash : n ≠ [] → paramAdjust s p0 = [] ∨ ∃ t, paramAdjust s p0 = '/' :: t := by
    intro hne
    apply paramAdjust_head
    by_cases hss2 : startsSS r2 = true
    · obtain ⟨t, hr2e⟩ := startsSS_shape hss2
      subst hr2e
      exact path_head_of_ss hnr hpq1e hp0e
    · rw [netlocPhase_of_not_ss (by simpa using hss2)] at hnr
      injection hnr with h1 h2
      exact absurd h1.symm hne
  have hhead : s = [] → n = [] → startsSS (paramAdjust s p0) = false →
      ∀ c t, paramAdjust s p0 = c :: t → isC0OrSpace c = false := by
    intro hs0 hn0 hssf c t hp2
    have hp0c : ∃ t2, p0 = c :: t2 := by
      rcases paramAdjust_sound s p0 with he | he
      · exact ⟨t, by rw [← he, hp2]⟩
      · rw [hp2, List.cons_append] at he
        exact ⟨t ++ [';'], he.symm⟩
    obtain ⟨t2, hp0c2⟩ := hp0c
    by_cases hss2 : startsSS r2 = true
    · obtain ⟨t3, hr2e⟩ := startsSS_shape hss2
      subst hr2e
      rcases path_head_of_ss hnr hpq1e hp0e with he | ⟨t4, he⟩
      · rw [he] at hp0c2
        exact absurd hp0c2 (by simp)
      · rw [he] at hp0c2
        injection hp0c2 with h1 h2
        rw [← h1]
        decide
    · have hreq : rest = r2 := by
        rw [netlocPhase_of_not_ss (by simpa using hss2)] at hnr
        injection hnr with h1 h2
        exact h2.symm
      subst hs0
      have hru : r2 = precleanUrl u := schemeSplit_nil_snd hsr
      have hq1 : pq1.takeWhile (fun c2 => !(c2 = '?')) = c :: t2 := by
        rw [← hp0e, hp0c2]
      obtain ⟨t5, hpq1c, -⟩ := takeWhile_head hq1
      have hq2 : rest.takeWhile (fun c2 => !(c2 = '#')) = c :: t5 := by
        rw [← hpq1e, hpq1c]
      obtain ⟨t6, hrestc, -⟩ := takeWhile_head hq2
      exact precleanUrl_head_not_C0 (by rw [← hru, ← hreq, hrestc])
  have hsniff : s = [] → n = [] → startsSS (paramAdjust s p0) = false →
      ¬ detectOK (paramAdjust s p0 ++ (if q0 = [] then [] else '?' :: q0)) := by
    intro hs0 hn0 hssf
    subst hs0
    have hnd : ¬ detectOK (precleanUrl u) := not_detect_of_schemeSplit_nil hsr
    by_cases hss2 : startsSS r2 = true
    · obtain ⟨t, hr2e⟩ := startsSS_shape hss2
      subst hr2e
      rcases paramAdjust_head (path_head_of_ss hnr hpq1e hp0e) with he | ⟨t2, he⟩
      · rw [he]
        by_cases hq : q0 = []
        · rw [if_pos hq, List.nil_append]
          exact not_detect_nil
        · rw [if_neg hq]
          exact not_detect_of_head rfl (by decide)
      · rw [he]
        exact not_detect_of_head (List.cons_append _ _ _) (by decide)
    · have hreq : rest = r2 := by
        rw [netlocPhase_of_not_ss (by simpa using hss2)] at hnr
        injection hnr with h1 h2
        exact h2.symm
      have hru : r2 = precleanUrl u := schemeSplit_nil_snd hsr
      have hx : ∃ x, paramAdjust [] p0 ++ x = p0 := by
        rcases paramAdjust_sound [] p0 with he | he
        · exact ⟨[], by rw [List.append_nil, he]⟩
        · exact ⟨[';'], he⟩
      obtain ⟨x, hx⟩ := hx
      exact sniff_lemma hnd
        (x ++ (pq1.dropWhile (fun c => !(c = '?')) ++ rest.dropWhile (fun c => !(c = '#'))))
        (by rw [← List.append_assoc, hx, ← List.append_assoc, hp0e,
          List.takeWhile_append_dropWhile, hpq1e, List.takeWhile_append_dropWhile,
          hreq, hru])
        q0
  exact parse_unsplit hf1 hf2 hf3 (netlocPhase_fst_facts hnr) hbb
    (fun hm => hpq1f (hp0sub _ (hp2sub _ hm)))
    (fun hm => hp0q (hp2sub _ hm))
    (fun hm => hpq1f (hq0sub _ hm))
    (fun c hc => huc c (hr2sub c (hrestsub c (hpq1sub c (hp0sub c (hp2sub c hc))))))
    (fun c hc => huc c (hr2sub c (hrestsub c (hpq1sub c (hq0sub c hc)))))
    (fun c hc => huc c (hr2sub c (hnsub c hc)))
    hslash hhead hsniff

theorem canonical_url_eq {u : Str} {r : UrlParts} (h : urlsplitM u = some r) :
    canonical_url u
      = some (urlunsplitM r.scheme r.netloc (paramAdjust r.scheme r.path) r.query []) := by
  rw [canonical_url, h]

theorem canonical_url_none {u : Str} (h : urlsplitM u = none) : canonical_url u = none := by
  rw [canonical_url, h]

/-- **C8**: URL canonicalization is idempotent — for every URL whose
canonicalization succeeds, canonicalizing the canonical form returns it
unchanged — and stripping only the fragment from a URL never changes its
canonical form, hence never changes the listing identifier `make_id`
derived from the canonical form. -/
theorem c8_canonical_idempotent :
    (∀ u v : Str, canonical_url u = some v → canonical_url v = some v)
    ∧ (∀ u : Str, canonical_url (stripFragment u) = canonical_url u)
    ∧ (∀ u : Str,
        (canonical_url (stripFragment u)).map make_id = (canonical_url u).map make_id) := by
  refine ⟨?_, canonical_strip, ?_⟩
  · intro u v hc
    cases hs : urlsplitM u with
    | none =>
      rw [canonical_url_none hs] at hc
      exact absurd hc (by simp)
    | some r =>
      rw [canonical_url_eq hs] at hc
      injection hc with hv
      have hrt := canonical_roundtrip hs
      rw [hv] at hrt
      rw [canonical_url_eq hrt]
      simp only [paramAdjust_idem]
      rw [hv]
  · intro u
    rw [canonical_strip]

/-- Witness: C8 idempotence applied at a concrete URL (with params, query
and fragment); the hypothesis is discharged by evaluation. -/
theorem c8_canonical_idempotent_witness :
    canonical_url (str "https://a.b/c;?q#f") = some (str "https://a.b/c?q")
    ∧ canonical_url (str "https://a.b/c?q") = some (str "https://a.b/c?q") :=
  ⟨by decide, c8_canonical_idempotent.1 (str "https://a.b/c;?q#f") (str "https://a.b/c?q")
    (by decide)⟩
